import Mathlib

/-!
Shallow embedding of the game replay & variation navigator of the chess
companion app, together with its evaluation-engine client, debounced
evaluation coordinator, evaluation bar and PGN move extraction, with proofs
about the behaviour the specification describes.

Chess rule enforcement itself is delegated by the application to an external
rules library (`chess.js`) that this repository does not contain; following
the specification it is treated as a black-box collaborator, modelled here as
a structure of functions over canonical position strings.
-/

namespace Chess

/-- A single ply as returned by the rules library: origin square, destination
square, optional promotion piece and the textual (SAN) rendering.  This is the
shape of `moveResult` consumed by `gameData` in `src/pages/Recents.jsx`. -/
structure MoveRecord where
  fromSq : String
  toSq : String
  promotion : Option String
  san : String
  deriving DecidableEq

/-- The rules collaborator (`chess.js`), external to this repository and
treated as a black box per the spec: a position snapshot is a canonical
position string (`chess.fen()`); `moveObj` is `chess.move({from, to,
promotion})`, `moveSan` is `chess.move(sanString)`, both returning the
resulting snapshot and the move record, or rejecting.  `replayRecord`
re-applies a previously produced move record to a snapshot
(`new Chess(fen)` followed by `chess.move(record)`); the two coherence fields
state the spec's contract for the collaborator: applying a move
deterministically reproduces the snapshot that was reported together with its
record. -/
structure ChessLib where
  start : String
  moveObj : String → String → String → Option String → Option (String × MoveRecord)
  moveSan : String → String → Option (String × MoveRecord)
  replayRecord : String → MoveRecord → Option String
  replay_obj : ∀ p f t pr p2 m, moveObj p f t pr = some (p2, m) → replayRecord p m = some p2
  replay_san : ∀ p s p2 m, moveSan p s = some (p2, m) → replayRecord p m = some p2

/-- `[a-h]` character class of the coordinate-move pattern. -/
def isFileChar (c : Char) : Bool := 'a' ≤ c && c ≤ 'h'

/-- `[1-8]` character class of the coordinate-move pattern. -/
def isRankChar (c : Char) : Bool := '1' ≤ c && c ≤ '8'

/-- `[qrbn]` promotion-piece character class. -/
def isPromoChar (c : Char) : Bool := c = 'q' || c = 'r' || c = 'b' || c = 'n'

/-- The anchored test `/^[a-h][1-8][a-h][1-8][qrbn]?$/.test(moveStr)` used by
`gameData` to recognise coordinate (UCI) notation. -/
def isUci (m : String) : Bool :=
  match m.toList with
  | [a, b, c, d] => isFileChar a && isRankChar b && isFileChar c && isRankChar d
  | [a, b, c, d, e] =>
      isFileChar a && isRankChar b && isFileChar c && isRankChar d && isPromoChar e
  | _ => false

/-- `moveStr.slice(0, 2)`. -/
def uciFrom (m : String) : String := ⟨m.toList.take 2⟩

/-- `moveStr.slice(2, 4)`. -/
def uciTo (m : String) : String := ⟨(m.toList.drop 2).take 2⟩

/-- `moveStr.length > 4 ? moveStr[4] : undefined`. -/
def uciPromotion (m : String) : Option String :=
  if m.toList.length > 4 then some ⟨(m.toList.drop 4).take 1⟩ else none

/-- One iteration of the token dispatch in `gameData`: a token matching the
coordinate pattern is applied in object form with its sliced fields, any other
token is applied as SAN. -/
def applyToken (lib : ChessLib) (fen : String) (moveStr : String) :
    Option (String × MoveRecord) :=
  if isUci moveStr then lib.moveObj fen (uciFrom moveStr) (uciTo moveStr) (uciPromotion moveStr)
  else lib.moveSan fen moveStr

/-- One element of `gameData.positions`: snapshot, the move record that
produced it (absent at index 0), optional clock reading, the from/to pair
highlighted as the last move, and the optional move-quality judgment. -/
structure TimelineEntry where
  fen : String
  move : Option MoveRecord
  clock : Option Nat
  lastMove : Option (String × String)
  judgment : Option String
  deriving DecidableEq

/-- One element of `selectedGame.analysis`: the platform-supplied evaluation
annotation for a ply (`judgment` holds `judgment?.name`). -/
structure AnalysisEntry where
  judgment : Option String := none
  best : Option String := none
  eval : Option Int := none
  mate : Option Int := none
  deriving DecidableEq

/-- `clocks[i] ? clocks[i] : null`: a missing or zero (falsy) clock reading
becomes `none`. -/
def clockAt (clocks : List Nat) (i : Nat) : Option Nat :=
  match clocks[i]? with
  | some c => if c = 0 then none else some c
  | none => none

/-- `selectedGame.analysis?.[i]?.judgment` followed by `judgment?.name ||
null`: a missing analysis list, a missing entry, a missing judgment or an
empty (falsy) name all become `none`. -/
def judgmentAt (analysis : Option (List AnalysisEntry)) (i : Nat) : Option String :=
  match analysis with
  | some l => (l[i]?.bind (·.judgment)).bind (fun s => if s = "" then none else some s)
  | none => none

/-- The `moves.forEach` loop of `gameData`: walk the token list with the
running snapshot `fen` and ply index `i`; a token that applies appends an
entry and advances the snapshot, a token that is rejected (`chess.move`
returned nothing / threw) is logged and skipped, the loop continuing with the
remaining tokens and the unchanged snapshot. -/
def buildEntries (lib : ChessLib) (clocks : List Nat) (analysis : Option (List AnalysisEntry)) :
    String → Nat → List String → List TimelineEntry
  | _, _, [] => []
  | fen, i, moveStr :: rest =>
    match applyToken lib fen moveStr with
    | some (fen2, m) =>
        { fen := fen2
          move := some m
          clock := clockAt clocks i
          lastMove := some (m.fromSq, m.toSq)
          judgment := judgmentAt analysis i } :: buildEntries lib clocks analysis fen2 (i+1) rest
    | none => buildEntries lib clocks analysis fen (i+1) rest

/-- JavaScript `String.prototype.split` with a single-character separator:
consecutive separators produce empty fields, `"".split(sep)` is `[""]`. -/
def jsSplitAux (sep : Char) : List Char → List Char → List (List Char)
  | [], acc => [acc.reverse]
  | c :: cs, acc =>
    if c = sep then acc.reverse :: jsSplitAux sep cs [] else jsSplitAux sep cs (c :: acc)

/-- `s.split(sep)` for a one-character separator. -/
def jsSplit (sep : Char) (s : String) : List String :=
  (jsSplitAux sep s.toList []).map (fun l => ⟨l⟩)

/-- `selectedGame.moves?.split(' ').filter(m => m) || []`. -/
def splitMoves (moves : Option String) : List String :=
  match moves with
  | none => []
  | some s => (jsSplit ' ' s).filter (· ≠ "")

/-- `gameData.positions`: the initial snapshot with no move, followed by one
entry per successfully applied token. -/
def gameDataPositions (lib : ChessLib) (moves : Option String) (clocks : List Nat)
    (analysis : Option (List AnalysisEntry)) : List TimelineEntry :=
  { fen := lib.start, move := none, clock := none, lastMove := none, judgment := none } ::
    buildEntries lib clocks analysis lib.start 0 (splitMoves moves)

/-- The number of tokens of a list that apply successfully during the
sequential (failure-skipping) replay from a given snapshot. -/
def countApplied (lib : ChessLib) : String → List String → Nat
  | _, [] => 0
  | fen, m :: rest =>
    match applyToken lib fen m with
    | some (fen2, _) => countApplied lib fen2 rest + 1
    | none => countApplied lib fen rest

/-- A concrete instance of the rules collaborator used to evaluate the builder
and navigator on explicit inputs: a snapshot is the log of the moves applied
so far, the SAN token "bad" is rejected, and every object-form (coordinate)
move is rejected. -/
def toyLib : ChessLib where
  start := "S"
  moveObj _ _ _ _ := none
  moveSan fen s := if s = "bad" then none else some (fen ++ ">" ++ s, ⟨"", "", none, s⟩)
  replayRecord fen m := if m.san = "bad" then none else some (fen ++ ">" ++ m.san)
  replay_obj := by intro p f t pr p2 m h; simp at h
  replay_san := by
    intro p s p2 m h
    by_cases hs : s = "bad"
    · simp [hs] at h
    · simp only [if_neg hs, Option.some.injEq, Prod.mk.injEq] at h
      obtain ⟨rfl, rfl⟩ := h
      simp [hs]

/-- A successful token application is reproducible through `replayRecord`:
direct consequence of the collaborator's coherence contract. -/
theorem applyToken_replay (lib : ChessLib) {fen moveStr fen2 : String} {m : MoveRecord}
    (h : applyToken lib fen moveStr = some (fen2, m)) :
    lib.replayRecord fen m = some fen2 := by
  unfold applyToken at h
  split at h
  · exact lib.replay_obj _ _ _ _ _ _ h
  · exact lib.replay_san _ _ _ _ h

/-- The built entry list has one entry per successfully applied token. -/
theorem buildEntries_length (lib : ChessLib) (clocks : List Nat)
    (analysis : Option (List AnalysisEntry)) :
    ∀ (ms : List String) (fen : String) (i : Nat),
      (buildEntries lib clocks analysis fen i ms).length = countApplied lib fen ms := by
  intro ms
  induction ms with
  | nil => intro fen i; rfl
  | cons m rest ih =>
    intro fen i
    unfold buildEntries countApplied
    cases h : applyToken lib fen m with
    | none => exact ih fen (i + 1)
    | some p =>
      cases p with
      | mk fen2 mr => simp [ih fen2 (i + 1)]

/-- Chain predicate: every entry of the list carries a move record that
replays its snapshot from the preceding snapshot. -/
inductive Chained (lib : ChessLib) : String → List TimelineEntry → Prop
  | nil (fen : String) : Chained lib fen []
  | cons {fen : String} {e : TimelineEntry} {rest : List TimelineEntry} (m : MoveRecord)
      (hm : e.move = some m) (hr : lib.replayRecord fen m = some e.fen)
      (hrest : Chained lib e.fen rest) : Chained lib fen (e :: rest)

theorem Chained.head {lib : ChessLib} {fen : String} {e : TimelineEntry}
    {rest : List TimelineEntry} (h : Chained lib fen (e :: rest)) :
    ∃ m, e.move = some m ∧ lib.replayRecord fen m = some e.fen := by
  cases h with
  | cons m hm hr _ => exact ⟨m, hm, hr⟩

/-- The entry list built by the replay loop is chained from its starting
snapshot. -/
theorem buildEntries_chained (lib : ChessLib) (clocks : List Nat)
    (analysis : Option (List AnalysisEntry)) :
    ∀ (ms : List String) (fen : String) (i : Nat),
      Chained lib fen (buildEntries lib clocks analysis fen i ms) := by
  intro ms
  induction ms with
  | nil => intro fen i; exact Chained.nil fen
  | cons m rest ih =>
    intro fen i
    unfold buildEntries
    cases h : applyToken lib fen m with
    | none => exact ih fen (i + 1)
    | some p =>
      cases p with
      | mk fen2 mr =>
        exact Chained.cons mr rfl (applyToken_replay lib h) (ih fen2 (i + 1))

/-- In a chained list, each entry replays from its predecessor. -/
theorem Chained.adjacent {lib : ChessLib} {fen : String} {l : List TimelineEntry}
    (hc : Chained lib fen l) :
    ∀ (i : Nat) (a b : TimelineEntry), l[i]? = some a → l[i + 1]? = some b →
      ∃ m, b.move = some m ∧ lib.replayRecord a.fen m = some b.fen := by
  induction hc with
  | nil => intro i a b ha _; simp at ha
  | cons m hm hr hrest ih =>
    intro i a b ha hb
    cases i with
    | zero =>
      rw [List.getElem?_cons_zero, Option.some.injEq] at ha
      rw [List.getElem?_cons_succ] at hb
      subst ha
      cases hl : ‹List TimelineEntry› with
      | nil => rw [hl] at hb; simp at hb
      | cons b2 t =>
        rw [hl] at hb hrest
        rw [List.getElem?_cons_zero, Option.some.injEq] at hb
        subst hb
        exact hrest.head
    | succ n =>
      rw [List.getElem?_cons_succ] at ha hb
      exact ih n a b ha hb

/-- C1: for every rules collaborator and move-token list replayed from the
initial position, `gameData.positions` has length equal to the number of
successfully applied tokens plus 1 (index 0 holding the initial position with
no move), and every snapshot at index `i ≥ 1` is the result of re-applying
the move record stored at index `i` to the snapshot at index `i - 1`. -/
theorem c1_timeline_builder (lib : ChessLib) (moves : Option String) (clocks : List Nat)
    (analysis : Option (List AnalysisEntry)) :
    (gameDataPositions lib moves clocks analysis).length
        = countApplied lib lib.start (splitMoves moves) + 1
    ∧ (gameDataPositions lib moves clocks analysis)[0]?
        = some ⟨lib.start, none, none, none, none⟩
    ∧ ∀ (i : Nat) (a b : TimelineEntry),
        (gameDataPositions lib moves clocks analysis)[i]? = some a →
        (gameDataPositions lib moves clocks analysis)[i + 1]? = some b →
        ∃ m, b.move = some m ∧ lib.replayRecord a.fen m = some b.fen := by
  refine ⟨?_, by simp [gameDataPositions], ?_⟩
  · simp [gameDataPositions, buildEntries_length]
  · intro i a b ha hb
    have hch : Chained lib lib.start
        (buildEntries lib clocks analysis lib.start 0 (splitMoves moves)) :=
      buildEntries_chained lib clocks analysis _ _ _
    cases i with
    | zero =>
      rw [gameDataPositions, List.getElem?_cons_zero, Option.some.injEq] at ha
      rw [gameDataPositions, List.getElem?_cons_succ] at hb
      cases hl : buildEntries lib clocks analysis lib.start 0 (splitMoves moves) with
      | nil => rw [hl] at hb; simp at hb
      | cons b2 t =>
        rw [hl] at hb hch
        rw [List.getElem?_cons_zero, Option.some.injEq] at hb
        subst hb
        subst ha
        exact hch.head
    | succ n =>
      rw [gameDataPositions, List.getElem?_cons_succ] at ha hb
      exact hch.adjacent n a b ha hb

/-- Witness for C1: the toy collaborator replaying the token list "a b" from
"S" yields three snapshots, and the snapshot at index 2 re-applies the stored
move record to the snapshot at index 1. -/
theorem c1_timeline_builder_witness :
    (gameDataPositions toyLib (some "a b") [] none).length
        = countApplied toyLib toyLib.start (splitMoves (some "a b")) + 1
    ∧ ∃ m, (⟨"S>a>b", some ⟨"", "", none, "b"⟩, none, some ("", ""), none⟩ :
          TimelineEntry).move = some m
        ∧ toyLib.replayRecord
            (⟨"S>a", some ⟨"", "", none, "a"⟩, none, some ("", ""), none⟩ :
              TimelineEntry).fen m
          = some (⟨"S>a>b", some ⟨"", "", none, "b"⟩, none, some ("", ""), none⟩ :
              TimelineEntry).fen :=
  ⟨(c1_timeline_builder toyLib (some "a b") [] none).1,
   (c1_timeline_builder toyLib (some "a b") [] none).2.2 1
     ⟨"S>a", some ⟨"", "", none, "a"⟩, none, some ("", ""), none⟩
     ⟨"S>a>b", some ⟨"", "", none, "b"⟩, none, some ("", ""), none⟩
     (by decide) (by decide)⟩

/-- C2 counterexample: replaying "a bad c" with the toy collaborator, token 0
("a") applies, token 1 ("bad") is the first token rejected (at snapshot
"S>a", so the claim's k is 1 and it demands exactly k + 1 = 2 timeline
entries and nothing beyond index 1), yet the builder produces 3 entries and
the later legal token "c" is still applied, appearing at index 2. -/
theorem c2_counterexample :
    (applyToken toyLib "S" "a").isSome = true
    ∧ applyToken toyLib "S>a" "bad" = none
    ∧ (gameDataPositions toyLib (some "a bad c") [] none).length = 3
    ∧ (gameDataPositions toyLib (some "a bad c") [] none)[2]?
        = some ⟨"S>a>c", some ⟨"", "", none, "c"⟩, none, some ("", ""), none⟩ := by
  decide

/-- C2 amended: a rejected token is logged and skipped — the builder carries
on with the remaining tokens against the unchanged snapshot (instead of
stopping at the failure), so the timeline keeps every successfully applied
ply, including plies from legal tokens occurring after the failure, and its
entry count stays 1 + the number of applied tokens. -/
theorem c2_failure_skips_token (lib : ChessLib) (clocks : List Nat)
    (analysis : Option (List AnalysisEntry)) (fen : String) (i : Nat) (t : String)
    (rest : List String) (h : applyToken lib fen t = none) :
    buildEntries lib clocks analysis fen i (t :: rest)
        = buildEntries lib clocks analysis fen (i + 1) rest
    ∧ (buildEntries lib clocks analysis fen i (t :: rest)).length
        = countApplied lib fen rest := by
  have he : buildEntries lib clocks analysis fen i (t :: rest)
      = buildEntries lib clocks analysis fen (i + 1) rest := by
    simp only [buildEntries, h]
  exact ⟨he, by rw [he, buildEntries_length]⟩

/-- Witness for C2 amended: with the toy collaborator, the rejected token
"bad" is skipped and the following token list is still replayed. -/
theorem c2_failure_skips_token_witness :
    buildEntries toyLib [] none "S>a" 1 ["bad", "c"]
        = buildEntries toyLib [] none "S>a" 2 ["c"]
    ∧ (buildEntries toyLib [] none "S>a" 1 ["bad", "c"]).length
        = countApplied toyLib "S>a" ["c"] :=
  c2_failure_skips_token toyLib [] none "S>a" 1 "bad" ["c"] (by decide)

/-! ### Variation Navigator (`Recents.jsx` navigation state) -/

/-- Navigation state of the Recents page: the cursor (`currentMoveIndex`),
the exploring flag (`inVariation`) and the speculative overlay
(`variationMoves`, UCI move strings). -/
structure NavState where
  currentMoveIndex : Int
  inVariation : Bool
  variationMoves : List String
  deriving DecidableEq

/-- `goToMove(index)`: set the cursor, touching nothing else. -/
def goToMove (index : Int) (s : NavState) : NavState :=
  { s with currentMoveIndex := index }

/-- `goFirst()`. -/
def goFirst (s : NavState) : NavState :=
  { s with currentMoveIndex := -1 }

/-- `goPrev()`: `Math.max(-1, currentMoveIndex - 1)`. -/
def goPrev (s : NavState) : NavState :=
  { s with currentMoveIndex := max (-1) (s.currentMoveIndex - 1) }

/-- `goNext()`: `Math.min(positions.length - 2, currentMoveIndex + 1)`;
`plen` is `gameData.positions.length` (the `|| 1` default applies only when
no game is selected). -/
def goNext (plen : Nat) (s : NavState) : NavState :=
  { s with currentMoveIndex := min ((plen : Int) - 2) (s.currentMoveIndex + 1) }

/-- `goLast()`: `positions.length - 2`. -/
def goLast (plen : Nat) (s : NavState) : NavState :=
  { s with currentMoveIndex := (plen : Int) - 2 }

/-- The four arrow keys consumed by `handleKeyDown`. -/
inductive ArrowKey
  | left
  | right
  | up
  | down
  deriving DecidableEq

/-- The `handleKeyDown` listener of `Recents.jsx`, as a pure transition on
the navigation state.  `currentBestMove` is the best-known move available at
the moment of the key press. -/
def handleKeyDown (plen : Nat) (currentBestMove : Option String) (key : ArrowKey)
    (shift : Bool) (s : NavState) : NavState :=
  match key, shift with
  | .right, true =>
    match currentBestMove with
    | some bestMoveUci =>
        { s with variationMoves := s.variationMoves ++ [bestMoveUci], inVariation := true }
    | none => s
  | .right, false =>
    if s.inVariation then
      match currentBestMove with
      | some bestMoveUci => { s with variationMoves := s.variationMoves ++ [bestMoveUci] }
      | none => s
    else goNext plen s
  | .left, true =>
    if s.inVariation then { s with variationMoves := [], inVariation := false } else s
  | .left, false =>
    if s.inVariation ∧ s.variationMoves ≠ [] then
      let newMoves := s.variationMoves.dropLast
      { s with variationMoves := newMoves
               inVariation := if newMoves.isEmpty then false else s.inVariation }
    else goPrev s
  | .up, _ => { goFirst s with inVariation := false, variationMoves := [] }
  | .down, _ => { goLast plen s with inVariation := false, variationMoves := [] }

/-- `basePosition`: `gameData.positions[currentMoveIndex + 1]?.fen ||
'start'` (an out-of-range index, or a falsy empty snapshot, yields the
`'start'` placeholder). -/
def basePosition (positions : List TimelineEntry) (currentMoveIndex : Int) : String :=
  if currentMoveIndex + 1 < 0 then "start"
  else
    match positions[(currentMoveIndex + 1).toNat]? with
    | some e => if e.fen = "" then "start" else e.fen
    | none => "start"

/-- The replay loop inside `currentPosition`: each overlay move is applied in
object form via its sliced UCI fields; a rejected move throws, surfacing here
as `none`. -/
def replayVariation (lib : ChessLib) : String → List String → Option String
  | fen, [] => some fen
  | fen, u :: rest =>
    match lib.moveObj fen (uciFrom u) (uciTo u) (uciPromotion u) with
    | some (fen2, _) => replayVariation lib fen2 rest
    | none => none

/-- `currentPosition`: the base snapshot when not exploring or when the
overlay is empty; otherwise the overlay replayed on top of the base snapshot,
falling back to the base snapshot when the replay throws (the `catch`
branch). -/
def currentPosition (lib : ChessLib) (positions : List TimelineEntry) (s : NavState) : String :=
  let base := basePosition positions s.currentMoveIndex
  if ¬s.inVariation ∨ s.variationMoves = [] then base
  else
    match replayVariation lib base s.variationMoves with
    | some fen => fen
    | none => base

/-- C3 counterexample: with the toy collaborator every object-form move is
illegal, in particular "e2e4" is illegal at the base snapshot "S>a" reached
at cursor 0 (the overlay being empty, that is also the position reached by
replaying the overlay), yet Shift+ArrowRight appends it: the overlay grows
from `[]` to `["e2e4"]` instead of being left unchanged, and the resulting
overlay is not replayable (the displayed position silently falls back to the
base snapshot). -/
theorem c3_counterexample :
    toyLib.moveObj
        (basePosition (gameDataPositions toyLib (some "a b") [] none) 0)
        (uciFrom "e2e4") (uciTo "e2e4") (uciPromotion "e2e4") = none
    ∧ (handleKeyDown 3 (some "e2e4") .right true ⟨0, false, []⟩).variationMoves = ["e2e4"]
    ∧ (handleKeyDown 3 (some "e2e4") .right true ⟨0, false, []⟩).inVariation = true
    ∧ replayVariation toyLib
        (basePosition (gameDataPositions toyLib (some "a b") [] none) 0) ["e2e4"] = none := by
  decide

/-- C3 amended: appending to the overlay is unconditional — whenever a
best-known move is available, Shift+ArrowRight (and ArrowRight while
exploring) appends it with no legality check, legal or not; an overlay that
fails to replay is not rejected at append time but tolerated at read time:
`currentPosition` falls back to the base snapshot at the cursor. -/
theorem c3_append_unchecked (plen : Nat) (bm : String) (s : NavState) :
    (handleKeyDown plen (some bm) .right true s).variationMoves = s.variationMoves ++ [bm]
    ∧ (handleKeyDown plen (some bm) .right true s).inVariation = true
    ∧ (s.inVariation = true →
        (handleKeyDown plen (some bm) .right false s).variationMoves = s.variationMoves ++ [bm])
    ∧ ∀ (lib : ChessLib) (positions : List TimelineEntry),
        s.inVariation = true → s.variationMoves ≠ [] →
        replayVariation lib (basePosition positions s.currentMoveIndex) s.variationMoves
          = none →
        currentPosition lib positions s = basePosition positions s.currentMoveIndex := by
  refine ⟨rfl, rfl, ?_, ?_⟩
  · intro h
    simp [handleKeyDown, h]
  · intro lib positions hv hne hfail
    simp only [currentPosition, hv, hne]
    rw [if_neg (by simp), hfail]

/-- Witness for C3 amended: a concrete state with a one-move overlay whose
appended move is illegal under the toy collaborator. -/
theorem c3_append_unchecked_witness :
    (handleKeyDown 3 (some "e2e4") .right true ⟨0, true, ["d2d4"]⟩).variationMoves
        = ["d2d4"] ++ ["e2e4"]
    ∧ (handleKeyDown 3 (some "e2e4") .right true ⟨0, true, ["d2d4"]⟩).inVariation = true
    ∧ currentPosition toyLib (gameDataPositions toyLib (some "a b") [] none)
        ⟨0, true, ["d2d4"]⟩
        = basePosition (gameDataPositions toyLib (some "a b") [] none) 0 :=
  ⟨(c3_append_unchecked 3 "e2e4" ⟨0, true, ["d2d4"]⟩).1,
   (c3_append_unchecked 3 "e2e4" ⟨0, true, ["d2d4"]⟩).2.1,
   (c3_append_unchecked 3 "e2e4" ⟨0, true, ["d2d4"]⟩).2.2.2
     toyLib (gameDataPositions toyLib (some "a b") [] none) rfl (by decide) (by decide)⟩

/-- Overlay/mode consistency: a non-empty overlay implies Exploring mode. -/
def overlayInv (s : NavState) : Prop := s.variationMoves ≠ [] → s.inVariation = true

instance (s : NavState) : Decidable (overlayInv s) := by
  unfold overlayInv; infer_instance

/-- C4 counterexample: `goToMove` (jump to an explicit timeline index, used
by the move-list buttons) sets only the cursor: jumping to index 0 from an
exploring state with a one-move overlay leaves the overlay non-empty and the
mode still Exploring, contradicting the claim that every jump action clears
the overlay and returns to Following. -/
theorem c4_counterexample :
    (goToMove 0 ⟨2, true, ["d2d4"]⟩).variationMoves = ["d2d4"]
    ∧ (goToMove 0 ⟨2, true, ["d2d4"]⟩).inVariation = true := by
  decide

/-- C4 amended: the overlay is non-empty only while Exploring is active (the
consistency invariant is preserved by every keyboard action and by
`goToMove`), and the keyboard jump-to-start (ArrowUp), jump-to-end
(ArrowDown) and exit-variation (Shift+ArrowLeft while exploring) actions
clear the overlay and return to Following; `goToMove`, however, moves only
the cursor and leaves the overlay and the mode untouched. -/
theorem c4_overlay_mode (plen : Nat) (bm : Option String) (key : ArrowKey) (shift : Bool)
    (s : NavState) (hinv : overlayInv s) :
    overlayInv (handleKeyDown plen bm key shift s)
    ∧ (∀ i : Int, (goToMove i s).variationMoves = s.variationMoves
        ∧ (goToMove i s).inVariation = s.inVariation
        ∧ overlayInv (goToMove i s))
    ∧ (handleKeyDown plen bm .up shift s).variationMoves = []
    ∧ (handleKeyDown plen bm .up shift s).inVariation = false
    ∧ (handleKeyDown plen bm .down shift s).variationMoves = []
    ∧ (handleKeyDown plen bm .down shift s).inVariation = false
    ∧ (s.inVariation = true →
        (handleKeyDown plen bm .left true s).variationMoves = []
        ∧ (handleKeyDown plen bm .left true s).inVariation = false) := by
  refine ⟨?_, fun i => ⟨rfl, rfl, hinv⟩, by cases shift <;> rfl, by cases shift <;> rfl,
    by cases shift <;> rfl, by cases shift <;> rfl, fun h => by simp [handleKeyDown, h]⟩
  unfold overlayInv at hinv ⊢
  cases key with
  | up => cases shift <;> simp [handleKeyDown]
  | down => cases shift <;> simp [handleKeyDown]
  | right =>
    cases shift with
    | true =>
      cases bm with
      | none => simpa [handleKeyDown] using hinv
      | some m => simp [handleKeyDown]
    | false =>
      cases hv : s.inVariation with
      | true =>
        cases bm with
        | none => simp only [handleKeyDown, hv, if_true]; exact fun _ => trivial
        | some m => simp [handleKeyDown, hv]
      | false => simpa [handleKeyDown, hv, goNext] using hinv
  | left =>
    cases shift with
    | true =>
      cases hv : s.inVariation with
      | true => simp [handleKeyDown, hv]
      | false => simpa [handleKeyDown, hv] using hinv
    | false =>
      by_cases hc : s.inVariation = true ∧ s.variationMoves ≠ []
      · simp only [handleKeyDown, if_pos hc]
        intro hne
        have hd : s.variationMoves.dropLast.isEmpty = false := by
          simpa [List.isEmpty_iff] using hne
        simp [hd, hc.1]
      · simpa [handleKeyDown, if_neg hc, goPrev] using hinv

/-- Witness for C4 amended: the invariant and the clearing actions evaluated
on a concrete exploring state. -/
theorem c4_overlay_mode_witness :
    overlayInv (handleKeyDown 5 (some "e2e4") .right false ⟨1, true, ["d2d4"]⟩)
    ∧ (handleKeyDown 5 (some "e2e4") .up false ⟨1, true, ["d2d4"]⟩).variationMoves = []
    ∧ (handleKeyDown 5 (some "e2e4") .down false ⟨1, true, ["d2d4"]⟩).inVariation = false :=
  ⟨(c4_overlay_mode 5 (some "e2e4") .right false ⟨1, true, ["d2d4"]⟩ (by decide)).1,
   (c4_overlay_mode 5 (some "e2e4") .up false ⟨1, true, ["d2d4"]⟩ (by decide)).2.2.1,
   (c4_overlay_mode 5 (some "e2e4") .down false ⟨1, true, ["d2d4"]⟩ (by decide)).2.2.2.2.2.1⟩

/-- After `k` forward steps from cursor -1 the cursor sits at
`min (plen - 2) (k - 1)` (for a non-empty positions list). -/
theorem goNext_iterate (plen : Nat) (hp : 1 ≤ plen) (s : NavState)
    (hs : s.currentMoveIndex = -1) :
    ∀ k : Nat, ((goNext plen)^[k] s).currentMoveIndex = min ((plen : Int) - 2) ((k : Int) - 1) := by
  intro k
  induction k with
  | zero =>
    simp only [Function.iterate_zero, id_eq, hs, Nat.cast_zero]
    rw [min_def]
    split <;> omega
  | succ n ih =>
    rw [Function.iterate_succ_apply']
    simp only [goNext, ih]
    push_cast
    simp only [min_def]
    split_ifs <;> omega

/-- C7 counterexample: for a 2-move game (`positions.length = 3`, timeline
indices 0..2, so the last timeline index is N = 2), stepping forward N = 2
times from cursor -1 reaches cursor 1 (the index of the last move), not the
last timeline index 2: starting from -1, the cursor after N unclamped steps
is N - 1, so it never equals the last timeline index. -/
theorem c7_counterexample :
    ((goNext 3)^[2] ⟨-1, false, []⟩).currentMoveIndex = 1 ∧ (1 : Int) ≠ 2 := by
  decide

/-- C7 amended: starting at cursor -1, stepping forward N times, where N =
`positions.length - 1` is the last timeline index (= the number of moves),
yields cursor N - 1 = `positions.length - 2` — the index of the last move,
whose timeline position (cursor + 1) is the last timeline index; any further
step forward is a no-op (the cursor stays clamped there), and a backward
step never takes the cursor below -1. -/
theorem c7_step_forward_clamps (plen : Nat) (hp : 1 ≤ plen) (s : NavState)
    (hs : s.currentMoveIndex = -1) :
    ((goNext plen)^[plen - 1] s).currentMoveIndex = (plen : Int) - 2
    ∧ goNext plen ((goNext plen)^[plen - 1] s) = (goNext plen)^[plen - 1] s
    ∧ ∀ t : NavState, -1 ≤ (goPrev t).currentMoveIndex := by
  have hk := goNext_iterate plen hp s hs (plen - 1)
  have hval : ((goNext plen)^[plen - 1] s).currentMoveIndex = (plen : Int) - 2 := by
    rw [hk]
    have : ((plen - 1 : Nat) : Int) = (plen : Int) - 1 := by omega
    rw [this]
    omega
  refine ⟨hval, ?_, fun t => le_max_left _ _⟩
  have hmin : min ((plen : Int) - 2) (((plen : Int) - 2) + 1) = (plen : Int) - 2 := by omega
  cases h : (goNext plen)^[plen - 1] s with
  | mk cmi iv vm =>
    have : cmi = (plen : Int) - 2 := by rw [h] at hval; exact hval
    simp [goNext, this, hmin]

/-- Witness for C7 amended: a 2-move game, stepped forward twice from -1. -/
theorem c7_step_forward_clamps_witness :
    ((goNext 3)^[3 - 1] ⟨-1, false, []⟩).currentMoveIndex = (3 : Int) - 2
    ∧ goNext 3 ((goNext 3)^[3 - 1] ⟨-1, false, []⟩) = (goNext 3)^[3 - 1] ⟨-1, false, []⟩
    ∧ -1 ≤ (goPrev ⟨5, false, []⟩).currentMoveIndex :=
  ⟨(c7_step_forward_clamps 3 (by decide) ⟨-1, false, []⟩ rfl).1,
   (c7_step_forward_clamps 3 (by decide) ⟨-1, false, []⟩ rfl).2.1,
   (c7_step_forward_clamps 3 (by decide) ⟨-1, false, []⟩ rfl).2.2 ⟨5, false, []⟩⟩

/-! ### Position engine client (`useStockfish`, the variant that normalises
scores to White's perspective) -/

/-- The `\d` character class. -/
def isDigitChar (c : Char) : Bool := '0' ≤ c && c ≤ '9'

/-- JavaScript's `\s` class restricted to the ASCII whitespace characters
(the only ones arising in engine output and PGN text). -/
def isJsSpace (c : Char) : Bool :=
  c = ' ' || c = '\t' || c = '\n' || c = '\r' || c = '\x0b' || c = '\x0c'

/-- `s.startsWith(pre)`. -/
def jsStartsWith (s pre : String) : Bool := pre.toList.isPrefixOf s.toList

/-- An unanchored regular-expression search: try the pattern at each
position, left to right, returning the first match. -/
def scanFor {α : Type} (p : List Char → Option α) : List Char → Option α
  | [] => p []
  | l@(_ :: t) =>
    match p l with
    | some a => some a
    | none => scanFor p t

/-- `parseInt` of a matched digit run. -/
def digitsToNat (ds : List Char) : Nat :=
  ds.foldl (fun n c => n * 10 + (c.toNat - '0'.toNat)) 0

/-- Greedy `\d+` at the current position: at least one digit, maximal run;
returns the digits and the rest. -/
def takeDigits1 (l : List Char) : Option (List Char × List Char) :=
  let ds := l.takeWhile isDigitChar
  if ds.isEmpty then none else some (ds, l.drop ds.length)

/-- `-?\d+` at the current position. -/
def takeInt (l : List Char) : Option (Int × List Char) :=
  match l with
  | '-' :: rest => (takeDigits1 rest).map (fun p => (-(digitsToNat p.1 : Int), p.2))
  | _ => (takeDigits1 l).map (fun p => ((digitsToNat p.1 : Int), p.2))

/-- Match a literal at the current position, returning the rest. -/
def stripLiteral (pat : List Char) (l : List Char) : Option (List Char) :=
  if pat.isPrefixOf l then some (l.drop pat.length) else none

/-- The two score kinds of `/score (cp|mate) (-?\d+)/`. -/
inductive ScoreType
  | cp
  | mate
  deriving DecidableEq

/-- `/score (cp|mate) (-?\d+)/` attempted at the current position. -/
def scoreAt (l : List Char) : Option (ScoreType × Int) :=
  match stripLiteral "score cp ".toList l with
  | some r => (takeInt r).map (fun p => (ScoreType.cp, p.1))
  | none =>
    match stripLiteral "score mate ".toList l with
    | some r => (takeInt r).map (fun p => (ScoreType.mate, p.1))
    | none => none

/-- `output.match(/score (cp|mate) (-?\d+)/)`. -/
def scoreSearch (s : String) : Option (ScoreType × Int) := scanFor scoreAt s.toList

/-- `/depth (\d+)/` attempted at the current position. -/
def depthAt (l : List Char) : Option Nat :=
  (stripLiteral "depth ".toList l).bind fun r => (takeDigits1 r).map fun p => digitsToNat p.1

/-- `output.match(/depth (\d+)/)`. -/
def depthSearch (s : String) : Option Nat := scanFor depthAt s.toList

/-- `/pv (.+)/` attempted at the current position (`.+` takes the whole rest
of the line; like the source regex, this also fires on the "pv" inside
"multipv"). -/
def pvAt (l : List Char) : Option String :=
  (stripLiteral "pv ".toList l).bind fun r => if r.isEmpty then none else some ⟨r⟩

/-- `output.match(/pv (.+)/)`. -/
def pvSearch (s : String) : Option String := scanFor pvAt s.toList

/-- `/bestmove (\S+)/` attempted at the current position. -/
def bestmoveAt (l : List Char) : Option String :=
  (stripLiteral "bestmove ".toList l).bind fun r =>
    let ws := r.takeWhile (fun c => !isJsSpace c)
    if ws.isEmpty then none else some ⟨ws⟩

/-- `output.match(/bestmove (\S+)/)`. -/
def bestmoveSearch (s : String) : Option String := scanFor bestmoveAt s.toList

/-- `(value / 100).toFixed(2)` for an integer centipawn count: the exact
two-decimal rendering (for the magnitudes an engine emits, the double
nearest `value/100` rounds back to exactly this string). -/
def formatCp (v : Int) : String :=
  let a := v.natAbs
  let frac := a % 100
  (if v < 0 then "-" else "") ++ toString (a / 100) ++ "."
    ++ (if frac < 10 then "0" else "") ++ toString frac

/-- The state held by the `useStockfish` hook. -/
structure SfState where
  isReady : Bool
  isAnalyzing : Bool
  evaluation : Option String
  bestMove : Option String
  depth : Nat
  principalVariation : List String
  currentFenRef : Option String
  deriving DecidableEq

/-- `isBlackToMove`: split the FEN stored at analysis time on spaces and
compare field 1 with `'b'` (no stored FEN means White). -/
def isBlackToMove (s : SfState) : Bool :=
  match s.currentFenRef with
  | none => false
  | some fen => (jsSplit ' ' fen)[1]? == some "b"

/-- `analyze(fen, targetDepth)`: record the submitted position (to determine
the side to move later) and reset the result fields; the `position fen` and
`go depth` commands themselves are outbound messages, not state. -/
def analyze (fen : String) (s : SfState) : SfState :=
  { s with currentFenRef := some fen, isAnalyzing := true, bestMove := none,
           evaluation := none, depth := 0, principalVariation := [] }

/-- The `info` branch of `parseUciOutput`: parse depth, score — negated when
the submitted position has Black to move — and principal variation, updating
the corresponding state fields. -/
def infoUpdate (output : String) (s : SfState) : SfState :=
  let sa :=
    match depthSearch output with
    | some d => { s with depth := d }
    | none => s
  let sb :=
    match scoreSearch output with
    | some (ty, v) =>
      let evalValue := if isBlackToMove sa then -v else v
      match ty with
      | .cp => { sa with evaluation := some (formatCp evalValue) }
      | .mate => { sa with evaluation := some ("M" ++ toString evalValue) }
    | none => sa
  match pvSearch output with
  | some pv => { sb with principalVariation := (jsSplit ' ' pv).take 5 }
  | none => sb

/-- The engine-output handler `parseUciOutput` (the `useStockfish` variant
with White-perspective normalisation): `readyok` readiness, `info` progress
lines (see `infoUpdate`), and the terminal `bestmove` line.  (The `uciok`
branch only posts a command and does not change state.) -/
def parseUciOutput (output : String) (s : SfState) : SfState :=
  let s0 := if output = "readyok" then { s with isReady := true } else s
  let s1 := if jsStartsWith output "info" then infoUpdate output s0 else s0
  if jsStartsWith output "bestmove" then
    match bestmoveSearch output with
    | some m => { s1 with bestMove := some m, isAnalyzing := false }
    | none => s1
  else s1

/-- Setting the depth field does not affect the stored FEN, hence not the
side to move. -/
theorem isBlackToMove_depth (s : SfState) (d : Nat) :
    isBlackToMove { s with depth := d } = isBlackToMove s := rfl

/-- A line starting with "info" is neither "readyok" nor a "bestmove" line. -/
theorem info_line_disjoint (output : String) (h : jsStartsWith output "info" = true) :
    output ≠ "readyok" ∧ jsStartsWith output "bestmove" = false := by
  constructor
  · intro he
    rw [he] at h
    exact absurd h (by decide)
  · unfold jsStartsWith at h ⊢
    cases hl : output.toList with
    | nil => rw [hl] at h; exact absurd h (by decide)
    | cons c t =>
      rw [hl] at h
      simp only [List.isPrefixOf, Bool.and_eq_true, beq_iff_eq] at h
      obtain ⟨hc, -⟩ := h
      subst hc
      simp [List.isPrefixOf]

/-- The evaluation exposed after an `info` line carrying a score token: the
engine value, negated when the submitted position has Black to move, rendered
as a two-decimal pawn figure for `cp` and as `M`-prefixed distance for
`mate`. -/
theorem infoUpdate_eval (output : String) (s : SfState) (ty : ScoreType) (v : Int)
    (hscore : scoreSearch output = some (ty, v)) :
    (infoUpdate output s).evaluation =
      some (match ty with
            | .cp => formatCp (if isBlackToMove s then -v else v)
            | .mate => "M" ++ toString (if isBlackToMove s then -v else v)) := by
  unfold infoUpdate
  cases hdep : depthSearch output <;> cases hpv : pvSearch output <;> cases ty <;>
    simp only [hscore, hdep, hpv] <;> rfl

/-- On an `info` line the handler reduces to the `info` branch. -/
theorem parseUciOutput_info (output : String) (s : SfState)
    (hinfo : jsStartsWith output "info" = true) :
    parseUciOutput output s = infoUpdate output s := by
  obtain ⟨hne, hnb⟩ := info_line_disjoint output hinfo
  unfold parseUciOutput
  simp only [if_neg hne, if_pos hinfo, hnb, Bool.false_eq_true, if_false]

theorem parseUciOutput_eval_of_score (s : SfState) (output : String) (ty : ScoreType) (v : Int)
    (hinfo : jsStartsWith output "info" = true)
    (hscore : scoreSearch output = some (ty, v)) :
    (parseUciOutput output s).evaluation =
      some (match ty with
            | .cp => formatCp (if isBlackToMove s then -v else v)
            | .mate => "M" ++ toString (if isBlackToMove s then -v else v)) := by
  rw [parseUciOutput_info output s hinfo, infoUpdate_eval output s ty v hscore]

/-- C5: for every engine progress line carrying a score token, when the side
to move of the position submitted for analysis is Black (field 1 of the
stored FEN is "b"), the evaluation exposed by the client is the negation of
the engine-reported value — `(-v/100).toFixed(2)` for a centipawn score `v`
and `"M" + (-v)` for a mate score `v` — normalising every displayed
evaluation to White's perspective. -/
theorem c5_black_score_negated (s : SfState) (output fen : String) (v : Int)
    (hfen : s.currentFenRef = some fen)
    (hb : (jsSplit ' ' fen)[1]? = some "b")
    (hinfo : jsStartsWith output "info" = true) :
    (scoreSearch output = some (ScoreType.cp, v) →
      (parseUciOutput output s).evaluation = some (formatCp (-v)))
    ∧ (scoreSearch output = some (ScoreType.mate, v) →
      (parseUciOutput output s).evaluation = some ("M" ++ toString (-v))) := by
  have hbm : isBlackToMove s = true := by
    unfold isBlackToMove
    rw [hfen]
    show ((jsSplit ' ' fen)[1]? == some "b") = true
    rw [hb]
    rfl
  constructor
  · intro hscore
    rw [parseUciOutput_eval_of_score s output .cp v hinfo hscore]
    simp [hbm]
  · intro hscore
    rw [parseUciOutput_eval_of_score s output .mate v hinfo hscore]
    simp [hbm]

/-- Witness for C5: a Black-to-move position submitted for analysis, a
centipawn progress line and a mate progress line. -/
theorem c5_black_score_negated_witness :
    ((jsSplit ' ' "k7/8/8/8/8/8/8/K7 b - - 0 1")[1]? = some "b")
    ∧ (parseUciOutput "info depth 12 score cp 35 pv e2e4 e7e5"
        ⟨true, true, none, none, 0, [], some "k7/8/8/8/8/8/8/K7 b - - 0 1"⟩).evaluation
        = some (formatCp (-35))
    ∧ (parseUciOutput "info depth 3 score mate 4 pv h1h2"
        ⟨true, true, none, none, 0, [], some "k7/8/8/8/8/8/8/K7 b - - 0 1"⟩).evaluation
        = some ("M" ++ toString (-4 : Int)) :=
  ⟨by decide,
   (c5_black_score_negated ⟨true, true, none, none, 0, [], some "k7/8/8/8/8/8/8/K7 b - - 0 1"⟩
      "info depth 12 score cp 35 pv e2e4 e7e5" "k7/8/8/8/8/8/8/K7 b - - 0 1" 35
      rfl (by decide) (by decide)).1 (by decide),
   (c5_black_score_negated ⟨true, true, none, none, 0, [], some "k7/8/8/8/8/8/8/K7 b - - 0 1"⟩
      "info depth 3 score mate 4 pv h1h2" "k7/8/8/8/8/8/8/K7 b - - 0 1" 4
      rfl (by decide) (by decide)).2 (by decide)⟩

/-! ### Evaluation request coordinator (the debounced-analysis effect of
`Recents.jsx`) -/

/-- The inputs (dependencies) of one run of the debounced-analysis effect. -/
structure EffectInput where
  selectedGame : Bool
  analysis : Option (List AnalysisEntry)
  currentMoveIndex : Int
  isReady : Bool
  currentPosition : String
  deriving DecidableEq

/-- `lichessAnalysis && currentMoveIndex >= 0 && lichessAnalysis[currentMoveIndex]`:
a platform-supplied evaluation annotation exists for the move at the current
cursor index. -/
def hasLichessEval (analysis : Option (List AnalysisEntry)) (cmi : Int) : Bool :=
  match analysis with
  | none => false
  | some l => decide (0 ≤ cmi) && (l[cmi.toNat]?).isSome

/-- The body of the debounced-analysis effect: the evaluation request this
run schedules after the 250 ms delay — the current position at the fixed
analysis-replay depth 16 — or `none` when the run schedules nothing (no game
selected, a platform annotation covers the current cursor index, or the
engine is not ready, in which case the engine is told to stop instead). -/
def effectRequest (inp : EffectInput) : Option (String × Nat) :=
  if ¬inp.selectedGame ∨ inp.currentMoveIndex < -1 then none
  else if ¬hasLichessEval inp.analysis inp.currentMoveIndex ∧ inp.isReady then
    some (inp.currentPosition, 16)
  else none

/-- Discrete-time semantics of the effect's scheduling: the events are the
successive effect runs (timestamp, request scheduled by that run or `none`);
rerunning the effect first executes the previous run's cleanup
(`clearTimeout` + `stop`), so a pending request is cancelled whenever the
next run happens strictly before its 250 ms delay elapses, and a pending
request whose delay elapses before the next run (or that is never followed
by another run) is issued. -/
def issuedRequests (delay : Nat) : List (Nat × Option (String × Nat)) → List (String × Nat)
  | [] => []
  | (t, oreq) :: rest =>
    match oreq with
    | none => issuedRequests delay rest
    | some req =>
      match rest with
      | [] => [req]
      | (t2, _) :: _ =>
        if t2 < t + delay then issuedRequests delay rest
        else req :: issuedRequests delay rest

/-- The effect runs induced by a sequence of dependency changes. -/
def effectEvents (es : List (Nat × EffectInput)) : List (Nat × Option (String × Nat)) :=
  es.map (fun e => (e.1, effectRequest e.2))

/-- A run whose guard passes schedules exactly the current position at depth
16. -/
theorem effectRequest_eq_of_isSome (inp : EffectInput)
    (h : (effectRequest inp).isSome = true) :
    effectRequest inp = some (inp.currentPosition, 16) := by
  unfold effectRequest at h ⊢
  split_ifs at h ⊢
  · simp at h
  · rfl
  · simp at h

/-- C6: for every non-empty sequence of effect runs whose guards all pass,
with each change arriving strictly within the 250 ms debounce delay of the
previous one, exactly one evaluation request is issued once silence follows:
the request for the final position, at the fixed analysis-replay depth 16
(every earlier run's pending request is cancelled by the next change's
cleanup before its delay elapses). -/
theorem c6_debounce_single_request (es : List (Nat × EffectInput)) (last : Nat × EffectInput)
    (hlast : es.getLast? = some last)
    (hgap : es.Chain' (fun a b => b.1 < a.1 + 250))
    (hgo : ∀ e ∈ es, (effectRequest e.2).isSome = true) :
    issuedRequests 250 (effectEvents es) = [(last.2.currentPosition, 16)] := by
  induction es generalizing last with
  | nil => simp at hlast
  | cons e rest ih =>
    cases rest with
    | nil =>
      have h1 : effectRequest e.2 = some (e.2.currentPosition, 16) :=
        effectRequest_eq_of_isSome e.2 (hgo e (List.mem_singleton.mpr rfl))
      have he : e = last := by simpa using hlast
      subst he
      simp [effectEvents, issuedRequests, h1]
    | cons e2 rest2 =>
      have h1 : effectRequest e.2 = some (e.2.currentPosition, 16) :=
        effectRequest_eq_of_isSome e.2 (hgo e (List.mem_cons_self e _))
      have hlt : e2.1 < e.1 + 250 := (List.chain'_cons.mp hgap).1
      have htail := ih last (by rw [← List.getLast?_cons_cons]; exact hlast)
        (List.chain'_cons.mp hgap).2
        (fun x hx => hgo x (List.mem_cons_of_mem e hx))
      simpa [effectEvents, issuedRequests, h1, if_pos hlt] using htail

/-- Witness for C6: three position changes 100 ms apart followed by silence
issue exactly one request, for the third position, at depth 16. -/
theorem c6_debounce_single_request_witness :
    issuedRequests 250 (effectEvents
      [(0, ⟨true, none, -1, true, "fen1"⟩),
       (100, ⟨true, none, 0, true, "fen2"⟩),
       (200, ⟨true, none, 1, true, "fen3"⟩)]) = [("fen3", 16)] :=
  c6_debounce_single_request
    [(0, ⟨true, none, -1, true, "fen1"⟩),
     (100, ⟨true, none, 0, true, "fen2"⟩),
     (200, ⟨true, none, 1, true, "fen3"⟩)]
    (200, ⟨true, none, 1, true, "fen3"⟩)
    (by decide) (by simp [List.chain'_cons]) (by decide)

/-- C8: when the current position already carries a platform-supplied
evaluation annotation — an analysis entry exists for the move at the current
cursor index — the effect run schedules no engine request at all. -/
theorem c8_no_request_when_annotated (inp : EffectInput) (l : List AnalysisEntry)
    (e : AnalysisEntry) (ha : inp.analysis = some l) (hi : 0 ≤ inp.currentMoveIndex)
    (he : l[inp.currentMoveIndex.toNat]? = some e) :
    effectRequest inp = none := by
  have hh : hasLichessEval inp.analysis inp.currentMoveIndex = true := by
    unfold hasLichessEval
    rw [ha]
    show (decide (0 ≤ inp.currentMoveIndex) && (l[inp.currentMoveIndex.toNat]?).isSome) = true
    rw [he]
    simp [hi]
  unfold effectRequest
  split
  · rfl
  · rw [if_neg]
    intro hcon
    rw [hh] at hcon
    exact hcon.1 rfl

/-- Witness for C8: a concrete run at cursor 0 whose move carries a platform
annotation schedules nothing. -/
theorem c8_no_request_when_annotated_witness :
    effectRequest ⟨true, some [⟨some "Blunder", some "e2e4", some 35, none⟩], 0, true, "fen"⟩
      = none :=
  c8_no_request_when_annotated
    ⟨true, some [⟨some "Blunder", some "e2e4", some 35, none⟩], 0, true, "fen"⟩
    [⟨some "Blunder", some "e2e4", some 35, none⟩]
    ⟨some "Blunder", some "e2e4", some 35, none⟩ rfl (by decide) (by decide)

/-! ### Evaluation bar (`EvalBar`) -/

/-- The syntactic pieces of a number accepted by JavaScript `parseFloat`:
sign, integer digits, fractional digits and decimal exponent. -/
structure ParsedNumber where
  neg : Bool
  intDigits : List Char
  fracDigits : List Char
  expo : Int
  deriving DecidableEq

/-- The rational value a `ParsedNumber` denotes. -/
def floatValue (p : ParsedNumber) : ℚ :=
  (if p.neg then -1 else 1)
    * ((digitsToNat p.intDigits : ℚ)
        + (digitsToNat p.fracDigits : ℚ) / ((10 : ℚ) ^ p.fracDigits.length))
    * (10 : ℚ) ^ p.expo

/-- JavaScript `parseFloat` on the decimal grammar it accepts: skip leading
whitespace, optional sign, integer digits and/or a fractional part, optional
exponent; the longest valid numeric prefix is taken and trailing garbage is
ignored; no digits at all means `NaN`, encoded `none`.  (The `Infinity`
literal is not modelled; the evaluation strings this component receives are
plain decimals or mate markers.) -/
def parseFloatJs (s : String) : Option ParsedNumber :=
  let l0 := s.toList.dropWhile isJsSpace
  let neg : Bool := match l0 with
    | '-' :: _ => true
    | _ => false
  let l := match l0 with
    | '-' :: r => r
    | '+' :: r => r
    | _ => l0
  let ip := l.takeWhile isDigitChar
  let l1 := l.drop ip.length
  let fp := match l1 with
    | '.' :: r => r.takeWhile isDigitChar
    | _ => []
  let l2 := match l1 with
    | '.' :: r => r.drop fp.length
    | _ => l1
  if ip.isEmpty && fp.isEmpty then none
  else
    let expo : Int := match l2 with
      | 'e' :: '-' :: r2 =>
        let ds := r2.takeWhile isDigitChar
        if ds.isEmpty then 0 else -(digitsToNat ds : Int)
      | 'e' :: '+' :: r2 =>
        let ds := r2.takeWhile isDigitChar
        if ds.isEmpty then 0 else (digitsToNat ds : Int)
      | 'e' :: r2 =>
        let ds := r2.takeWhile isDigitChar
        if ds.isEmpty then 0 else (digitsToNat ds : Int)
      | 'E' :: '-' :: r2 =>
        let ds := r2.takeWhile isDigitChar
        if ds.isEmpty then 0 else -(digitsToNat ds : Int)
      | 'E' :: '+' :: r2 =>
        let ds := r2.takeWhile isDigitChar
        if ds.isEmpty then 0 else (digitsToNat ds : Int)
      | 'E' :: r2 =>
        let ds := r2.takeWhile isDigitChar
        if ds.isEmpty then 0 else (digitsToNat ds : Int)
      | _ => 0
    some ⟨neg, ip, fp, expo⟩

/-- The sigmoid-like mapping of `EvalBar`:
`50 + (2 / (1 + Math.exp(-1.0 * score)) - 1) * 50`. -/
noncomputable def rawWhitePercentage (score : ℝ) : ℝ :=
  50 + (2 / (1 + Real.exp (-(1 : ℝ) * score)) - 1) * 50

/-- The `whitePercentage` memo of `EvalBar`: 50 for an absent (or falsy
empty) evaluation string; 0 or 100 on a mate marker (any string containing
'M'), by leading '-'; 50 when `parseFloat` yields `NaN`; otherwise the
sigmoid value clamped into `[5, 95]` by `Math.max(5, Math.min(95, p))`. -/
noncomputable def whitePercentage (evaluation : Option String) : ℝ :=
  match evaluation with
  | none => 50
  | some s =>
    if s = "" then 50
    else if s.toList.contains 'M' then (if jsStartsWith s "-" then 0 else 100)
    else
      match parseFloatJs s with
      | none => 50
      | some pn => max 5 (min 95 (rawWhitePercentage ((floatValue pn : ℚ) : ℝ)))

/-- C10: the evaluation bar's white percentage is 50 for an absent or
non-numeric (NaN) evaluation, exactly 0 or 100 on a mate marker — 0 exactly
when the string starts with '-' — and otherwise clamped into [5, 95], so both
colours stay visible except on mate. -/
theorem c10_eval_bar_percentage :
    (whitePercentage none = 50)
    ∧ (whitePercentage (some "") = 50)
    ∧ (∀ s : String, s ≠ "" → s.toList.contains 'M' = true →
        whitePercentage (some s) = if jsStartsWith s "-" then 0 else 100)
    ∧ (∀ s : String, s ≠ "" → s.toList.contains 'M' = false → parseFloatJs s = none →
        whitePercentage (some s) = 50)
    ∧ (∀ (s : String) (pn : ParsedNumber), s ≠ "" → s.toList.contains 'M' = false →
        parseFloatJs s = some pn →
        5 ≤ whitePercentage (some s) ∧ whitePercentage (some s) ≤ 95) := by
  refine ⟨rfl, rfl, ?_, ?_, ?_⟩
  · intro s hne hm
    unfold whitePercentage
    dsimp only
    rw [if_neg hne, if_pos hm]
  · intro s hne hm hnan
    unfold whitePercentage
    dsimp only
    rw [if_neg hne, if_neg (by rw [hm]; exact Bool.false_ne_true), hnan]
  · intro s pn hne hm hq
    unfold whitePercentage
    dsimp only
    rw [if_neg hne, if_neg (by rw [hm]; exact Bool.false_ne_true), hq]
    constructor
    · exact le_max_left _ _
    · exact max_le (by norm_num) (min_le_left _ _)

/-- Witness for C10: a Black-mate marker maps to 0, a White-mate marker to
100, a junk string to 50, and a numeric evaluation stays inside [5, 95]. -/
theorem c10_eval_bar_percentage_witness :
    whitePercentage (some "-M3") = 0
    ∧ whitePercentage (some "M3") = 100
    ∧ whitePercentage (some "hello") = 50
    ∧ 5 ≤ whitePercentage (some "0.35") ∧ whitePercentage (some "0.35") ≤ 95 := by
  refine ⟨?_, ?_, ?_, ?_, ?_⟩
  · rw [c10_eval_bar_percentage.2.2.1 "-M3" (by decide) (by decide)]
    simp [show jsStartsWith "-M3" "-" = true from by decide]
  · rw [c10_eval_bar_percentage.2.2.1 "M3" (by decide) (by decide)]
    simp [show jsStartsWith "M3" "-" = false from by decide]
  · exact c10_eval_bar_percentage.2.2.2.1 "hello" (by decide) (by decide) (by decide)
  · exact (c10_eval_bar_percentage.2.2.2.2 "0.35" ⟨false, ['0'], ['3', '5'], 0⟩
      (by decide) (by decide) (by decide)).1
  · exact (c10_eval_bar_percentage.2.2.2.2 "0.35" ⟨false, ['0'], ['3', '5'], 0⟩
      (by decide) (by decide) (by decide)).2

/-! ### Chess.com move extraction (`extractMovesFromPgn` in
`src/services/chesscom.js`) -/

/-- JS `s.trim()` over the ASCII whitespace characters. -/
def jsTrim (l : List Char) : List Char :=
  ((l.dropWhile isJsSpace).reverse.dropWhile isJsSpace).reverse

/-- The line filter `!line.startsWith('[') && line.trim()`. -/
def keepLine (l : List Char) : Bool :=
  !("[".toList.isPrefixOf l) && !(jsTrim l).isEmpty

/-- `lines.join(' ')` at character level. -/
def joinSpace : List (List Char) → List Char
  | [] => []
  | [l] => l
  | l :: ls => l ++ ' ' :: joinSpace ls

/-- Lines joined by newlines (used to build concrete PGN texts). -/
def joinNl : List (List Char) → List Char
  | [] => []
  | [l] => l
  | l :: ls => l ++ '\n' :: joinNl ls

/-- `\d+\.\s*` attempted at the current position: a maximal digit run, a
literal dot, maximal whitespace; returns the rest on success. -/
def numDotAt (l : List Char) : Option (List Char) :=
  if (l.takeWhile isDigitChar).isEmpty then none
  else
    match l.drop (l.takeWhile isDigitChar).length with
    | d :: r => if d = '.' then some (r.dropWhile isJsSpace) else none
    | [] => none

/-- Everything after the first occurrence of `close`, if any. -/
def closeSplit (close : Char) (cs : List Char) : Option (List Char) :=
  match cs.dropWhile (fun c => !(c = close)) with
  | _ :: rest => some rest
  | [] => none

/-- `\{[^}]*\}` attempted at the current position (greedy `[^}]*` runs to the
first closing brace). -/
def braceAt : List Char → Option (List Char)
  | [] => none
  | c :: cs => if c = '{' then closeSplit '}' cs else none

/-- `\([^)]*\)` attempted at the current position. -/
def parenAt : List Char → Option (List Char)
  | [] => none
  | c :: cs => if c = '(' then closeSplit ')' cs else none

/-- `1-0|0-1|1\/2-1\/2|\*` attempted at the current position, alternatives in
source order. -/
def resultAt (l : List Char) : Option (List Char) :=
  if "1-0".toList.isPrefixOf l then some (l.drop 3)
  else if "0-1".toList.isPrefixOf l then some (l.drop 3)
  else if "1/2-1/2".toList.isPrefixOf l then some (l.drop 7)
  else
    match l with
    | [] => none
    | c :: r => if c = '*' then some r else none

/-- The scan of a global regex replacement with empty replacement: at each
position try the pattern; on a match, delete it and continue after it, else
emit the character and move one position right.  Implemented with a length
fuel so that it is structural (every matcher below consumes at least one
character, so the fuel never runs out; none of the matchers can match an
empty suffix, so stopping at the end is faithful). -/
def scanReplaceFuel (m : List Char → Option (List Char)) : Nat → List Char → List Char
  | 0, l => l
  | _ + 1, [] => []
  | fuel + 1, c :: cs =>
    match m (c :: cs) with
    | some rest => scanReplaceFuel m fuel rest
    | none => c :: scanReplaceFuel m fuel cs

/-- `text.replace(pattern, '')` for a global pattern given by `m`. -/
def scanReplace (m : List Char → Option (List Char)) (l : List Char) : List Char :=
  scanReplaceFuel m l.length l

/-- `extractMovesFromPgn` at character level: drop header/blank lines, join
the rest with spaces, then strip move numbers, brace comments, parenthesised
variations and result markers, and trim. -/
def extractMovesChars (l : List Char) : List Char :=
  let lines := jsSplitAux '\n' l []
  let moveText := joinSpace (lines.filter keepLine)
  jsTrim (scanReplace resultAt (scanReplace parenAt
    (scanReplace braceAt (scanReplace numDotAt moveText))))

/-- `extractMovesFromPgn(pgn)`: the falsy guard, then the character-level
pipeline. -/
def extractMovesFromPgn (pgn : Option String) : String :=
  match pgn with
  | none => ""
  | some p => if p = "" then "" else ⟨extractMovesChars p.toList⟩

/-- C9 counterexample: a legal PGN with a nested variation.  The variation
stripper `/\([^)]*\)/g` is not nesting-aware: on
`"1. e4 (1. d4 (1. c4) d5) e5 1-0"` its first match stops at the first `)`,
so the tail of the outer variation — `d5)` — survives into the returned move
string, which therefore still contains parenthesised-variation text,
contradicting the claim. -/
theorem c9_counterexample :
    extractMovesFromPgn (some "[Event \"x\"]\n1. e4 (1. d4 (1. c4) d5) e5 1-0")
        = "e4  d5) e5"
    ∧ ')' ∈ "e4  d5) e5".toList := by
  decide

/-- Fuel irrelevance for `scanReplaceFuel`, given that every match consumes
at least one character. -/
theorem scanReplaceFuel_congr (m : List Char → Option (List Char))
    (hm : ∀ c cs r, m (c :: cs) = some r → r.length ≤ cs.length) :
    ∀ (f1 f2 : Nat) (l : List Char), l.length ≤ f1 → l.length ≤ f2 →
      scanReplaceFuel m f1 l = scanReplaceFuel m f2 l := by
  intro f1
  induction f1 with
  | zero =>
    intro f2 l h1 _
    have : l = [] := List.eq_nil_of_length_eq_zero (Nat.le_zero.mp h1)
    subst this
    cases f2 <;> rfl
  | succ f ih =>
    intro f2 l h1 h2
    cases l with
    | nil => cases f2 <;> rfl
    | cons c cs =>
      cases f2 with
      | zero => simp at h2
      | succ g =>
        show (match m (c :: cs) with
              | some rest => scanReplaceFuel m f rest
              | none => c :: scanReplaceFuel m f cs) =
            (match m (c :: cs) with
              | some rest => scanReplaceFuel m g rest
              | none => c :: scanReplaceFuel m g cs)
        cases hmc : m (c :: cs) with
        | some rest =>
          have hr := hm c cs rest hmc
          have hcs : cs.length + 1 = (c :: cs).length := rfl
          exact ih g rest (by omega) (by omega)
        | none =>
          have hl1 : cs.length ≤ f := by simp at h1; omega
          have hl2 : cs.length ≤ g := by simp at h2; omega
          rw [ih g cs hl1 hl2]

/-- Non-matching head: emit it and continue. -/
theorem scanReplace_skip (m : List Char → Option (List Char)) (c : Char) (cs : List Char)
    (h : m (c :: cs) = none) :
    scanReplace m (c :: cs) = c :: scanReplace m cs := by
  show (match m (c :: cs) with
        | some rest => scanReplaceFuel m cs.length rest
        | none => c :: scanReplaceFuel m cs.length cs) = _
  rw [h]
  rfl

/-- Matching head: delete the match and continue after it. -/
theorem scanReplace_matchStep (m : List Char → Option (List Char))
    (hm : ∀ c cs r, m (c :: cs) = some r → r.length ≤ cs.length)
    (c : Char) (cs rest : List Char) (h : m (c :: cs) = some rest) :
    scanReplace m (c :: cs) = scanReplace m rest := by
  show (match m (c :: cs) with
        | some rest => scanReplaceFuel m cs.length rest
        | none => c :: scanReplaceFuel m cs.length cs) = _
  rw [h]
  exact scanReplaceFuel_congr m hm cs.length rest.length rest (hm c cs rest h) le_rfl

/-- A segment none of whose non-empty suffixes starts a match passes through
the scan unchanged. -/
theorem scanReplace_append (m : List Char → Option (List Char)) (seg tail : List Char)
    (h : ∀ s2, s2 <:+ seg → s2 ≠ [] → m (s2 ++ tail) = none) :
    scanReplace m (seg ++ tail) = seg ++ scanReplace m tail := by
  induction seg with
  | nil => rfl
  | cons c cs ih =>
    have hc : m ((c :: cs) ++ tail) = none :=
      h (c :: cs) (List.suffix_refl _) (List.cons_ne_nil c cs)
    rw [List.cons_append, scanReplace_skip m c (cs ++ tail) hc,
      ih (fun s2 hs hne => h s2 (hs.trans (List.suffix_cons c cs)) hne), List.cons_append]

/-! #### List helper lemmas for the regex scanners -/

theorem takeWhile_append_all {p : Char → Bool} (a b : List Char) (h : ∀ c ∈ a, p c = true) :
    (a ++ b).takeWhile p = a ++ b.takeWhile p := by
  induction a with
  | nil => rfl
  | cons c cs ih =>
    rw [List.cons_append, List.takeWhile_cons, if_pos (h c (List.mem_cons_self c cs)),
      ih (fun d hd => h d (List.mem_cons_of_mem c hd)), List.cons_append]

theorem takeWhile_append_stop {p : Char → Bool} (a b : List Char) (h : a.dropWhile p ≠ []) :
    (a ++ b).takeWhile p = a.takeWhile p := by
  induction a with
  | nil => simp at h
  | cons c cs ih =>
    by_cases hc : p c
    · rw [List.dropWhile_cons, if_pos hc] at h
      rw [List.cons_append, List.takeWhile_cons, if_pos hc, List.takeWhile_cons, if_pos hc,
        ih h]
    · rw [List.cons_append, List.takeWhile_cons, if_neg hc, List.takeWhile_cons, if_neg hc]

theorem dropWhile_append_stop {p : Char → Bool} (a b : List Char) (h : a.dropWhile p ≠ []) :
    (a ++ b).dropWhile p = a.dropWhile p ++ b := by
  induction a with
  | nil => simp at h
  | cons c cs ih =>
    by_cases hc : p c
    · rw [List.dropWhile_cons, if_pos hc] at h
      rw [List.cons_append, List.dropWhile_cons, if_pos hc, List.dropWhile_cons, if_pos hc,
        ih h]
    · rw [List.cons_append, List.dropWhile_cons, if_neg hc, List.dropWhile_cons, if_neg hc,
        List.cons_append]

theorem drop_takeWhile_length {p : Char → Bool} (l : List Char) :
    l.drop (l.takeWhile p).length = l.dropWhile p := by
  induction l with
  | nil => rfl
  | cons c cs ih =>
    by_cases hc : p c
    · rw [List.takeWhile_cons, if_pos hc, List.dropWhile_cons, if_pos hc, List.length_cons,
        List.drop_succ_cons, ih]
    · rw [List.takeWhile_cons, if_neg hc, List.dropWhile_cons, if_neg hc, List.length_nil,
        List.drop_zero]

theorem dropWhile_head_false {p : Char → Bool} (l : List Char) (d : Char) (r : List Char)
    (h : l.dropWhile p = d :: r) : p d = false := by
  induction l with
  | nil => simp at h
  | cons c cs ih =>
    by_cases hc : p c
    · rw [List.dropWhile_cons, if_pos hc] at h
      exact ih h
    · rw [List.dropWhile_cons, if_neg hc] at h
      cases h
      exact Bool.eq_false_iff.mpr hc

/-! #### Matcher consumption bounds -/

theorem numDotAt_length (c : Char) (cs r : List Char) (h : numDotAt (c :: cs) = some r) :
    r.length ≤ cs.length := by
  unfold numDotAt at h
  split_ifs at h with he
  cases hdrop : (c :: cs).drop ((c :: cs).takeWhile isDigitChar).length with
  | nil => rw [hdrop] at h; cases h
  | cons d rr =>
    rw [hdrop] at h
    dsimp only at h
    split_ifs at h with hd
    injection h with h
    subst h
    have h1 : (rr.dropWhile isJsSpace).length ≤ rr.length :=
      (List.dropWhile_suffix isJsSpace).length_le
    have h2 := congrArg List.length hdrop
    rw [List.length_drop] at h2
    simp only [List.length_cons] at h2
    omega

theorem closeSplit_length (cl : Char) (cs r : List Char) (h : closeSplit cl cs = some r) :
    r.length < cs.length + 1 := by
  unfold closeSplit at h
  cases hdrop : cs.dropWhile (fun c => !(c = cl)) with
  | nil => rw [hdrop] at h; cases h
  | cons d rr =>
    rw [hdrop] at h
    injection h with h
    subst h
    have h1 : (d :: rr).length ≤ cs.length := by
      rw [← hdrop]
      exact (List.dropWhile_suffix _).length_le
    simp only [List.length_cons] at h1
    omega

theorem braceAt_length (c : Char) (cs r : List Char) (h : braceAt (c :: cs) = some r) :
    r.length ≤ cs.length := by
  simp only [braceAt] at h
  split_ifs at h with hc
  have := closeSplit_length '}' cs r h
  omega

theorem parenAt_length (c : Char) (cs r : List Char) (h : parenAt (c :: cs) = some r) :
    r.length ≤ cs.length := by
  simp only [parenAt] at h
  split_ifs at h with hc
  have := closeSplit_length ')' cs r h
  omega

theorem resultAt_length (c : Char) (cs r : List Char) (h : resultAt (c :: cs) = some r) :
    r.length ≤ cs.length := by
  unfold resultAt at h
  split_ifs at h with h1 h2 h3
  · injection h with h
    subst h
    simp only [List.length_drop, List.length_cons]
    omega
  · injection h with h
    subst h
    simp only [List.length_drop, List.length_cons]
    omega
  · injection h with h
    subst h
    simp only [List.length_drop, List.length_cons]
    omega
  · dsimp only at h
    split_ifs at h with h4
    injection h with h
    subst h
    exact le_rfl

/-! #### Where the matchers cannot fire -/

theorem numDotAt_none_of_head (c : Char) (cs : List Char) (h : isDigitChar c = false) :
    numDotAt (c :: cs) = none := by
  simp [numDotAt, List.takeWhile_cons, h]

theorem braceAt_none_of_head (c : Char) (cs : List Char) (h : c ≠ '{') :
    braceAt (c :: cs) = none := by
  simp [braceAt, h]

theorem parenAt_none_of_head (c : Char) (cs : List Char) (h : c ≠ '(') :
    parenAt (c :: cs) = none := by
  simp [parenAt, h]

theorem resultAt_none_of_head (c : Char) (cs : List Char) (h1 : c ≠ '1') (h0 : c ≠ '0')
    (hs : c ≠ '*') : resultAt (c :: cs) = none := by
  have e1 : (('1' : Char) == c) = false := beq_eq_false_iff_ne.mpr (fun hh => h1 hh.symm)
  have e0 : (('0' : Char) == c) = false := beq_eq_false_iff_ne.mpr (fun hh => h0 hh.symm)
  simp [resultAt, List.isPrefixOf, e1, e0, hs]

/-- A segment all of whose characters prevent a match at their position
passes through unchanged. -/
theorem scanReplace_append_head (m : List Char → Option (List Char)) (P : Char → Prop)
    (hm0 : ∀ c cs, P c → m (c :: cs) = none)
    (seg tail : List Char) (h : ∀ c ∈ seg, P c) :
    scanReplace m (seg ++ tail) = seg ++ scanReplace m tail :=
  scanReplace_append m seg tail (fun s2 hs hne => by
    cases s2 with
    | nil => exact absurd rfl hne
    | cons c r =>
      exact hm0 c _ (h c (hs.subset (List.mem_cons_self c r))))

/-- `\d+\.\s*` cannot fire anywhere in a dot-free segment whose continuation
starts with a space (or is empty). -/
theorem numDotAt_none_of_no_dot (s tail : List Char) (hs : s ≠ []) (hdot : '.' ∉ s)
    (htail : tail = [] ∨ ∃ tl, tail = ' ' :: tl) : numDotAt (s ++ tail) = none := by
  by_cases hall : ∀ c ∈ s, isDigitChar c = true
  · have hds := takeWhile_append_all s tail hall
    rcases htail with rfl | ⟨tl, rfl⟩
    · have hds2 : (s ++ ([] : List Char)).takeWhile isDigitChar = s := by
        rw [hds]; simp
      unfold numDotAt
      rw [hds2, if_neg (by simpa [List.isEmpty_iff] using hs),
        show (s ++ ([] : List Char)).drop s.length = [] by simp]
    · have hds2 : (s ++ ' ' :: tl).takeWhile isDigitChar = s := by
        rw [hds, List.takeWhile_cons, if_neg (by decide), List.append_nil]
      unfold numDotAt
      rw [hds2, if_neg (by simpa [List.isEmpty_iff] using hs), List.drop_left]
      dsimp only
      rw [if_neg (by decide)]
  · have hne : s.dropWhile isDigitChar ≠ [] := fun hnil =>
      hall (List.dropWhile_eq_nil_iff.mp hnil)
    have hds := takeWhile_append_stop s tail hne
    unfold numDotAt
    rw [hds]
    by_cases he : (s.takeWhile isDigitChar).isEmpty
    · rw [if_pos he]
    · rw [if_neg he,
        List.drop_append_of_le_length (List.takeWhile_prefix isDigitChar).length_le,
        drop_takeWhile_length]
      cases hdw : s.dropWhile isDigitChar with
      | nil => exact absurd hdw hne
      | cons d rr =>
        have hdmem : d ∈ s :=
          (List.dropWhile_suffix isDigitChar).subset (hdw ▸ List.mem_cons_self d rr)
        rw [List.cons_append]
        dsimp only
        rw [if_neg (show ¬d = '.' from fun hh => hdot (hh ▸ hdmem))]

/-- The segment-skip rule of the move-number pass: a dot-free segment whose
continuation starts with a space (or ends the text) is copied unchanged. -/
theorem scanReplace_numDot_seg (seg tail : List Char) (hdot : '.' ∉ seg)
    (htail : tail = [] ∨ ∃ tl, tail = ' ' :: tl) :
    scanReplace numDotAt (seg ++ tail) = seg ++ scanReplace numDotAt tail :=
  scanReplace_append _ seg tail (fun s2 hs hne =>
    numDotAt_none_of_no_dot s2 tail hne (fun hc => hdot (hs.subset hc)) htail)

/-- `\d+\.\s*` fires on a rendered move number: it consumes the digits, the
first dot and any following whitespace. -/
theorem numDotAt_match_num (ds : List Char) (dots : Nat) (tail : List Char)
    (hne : ds ≠ []) (hd : ∀ c ∈ ds, isDigitChar c = true) (h1 : 1 ≤ dots) :
    numDotAt (ds ++ List.replicate dots '.' ++ tail)
      = some ((List.replicate (dots - 1) '.' ++ tail).dropWhile isJsSpace) := by
  obtain ⟨k, rfl⟩ : ∃ k, dots = k + 1 := ⟨dots - 1, by omega⟩
  rw [List.replicate_succ, List.append_assoc]
  have hds2 : (ds ++ ('.' :: List.replicate k '.' ++ tail)).takeWhile isDigitChar = ds := by
    rw [takeWhile_append_all ds _ hd, List.cons_append, List.takeWhile_cons,
      if_neg (by decide), List.append_nil]
  unfold numDotAt
  rw [hds2, if_neg (by simpa [List.isEmpty_iff] using hne), List.drop_left,
    List.cons_append]
  dsimp only
  rw [if_pos rfl]
  simp

/-! #### Well-formed PGN texts in the chess.com archive shape -/

/-- Characters legitimate inside a SAN token: letters, digits, check/mate
marks, the promotion equals sign and the castling hyphen. -/
def sanChar (c : Char) : Bool :=
  c.isAlpha || isDigitChar c || c = '+' || c = '#' || c = '=' || c = '-'

/-- Adjacent-pair restriction inside a SAN token: a hyphen never directly
follows a digit (true of actual SAN; rules out result-marker shapes). -/
def sanPairOk (a b : Char) : Prop := ¬(isDigitChar a = true ∧ b = '-')

/-- Characters allowed in a brace comment body: anything except braces,
newlines and dots (chess.com clock comments without fractional seconds). -/
def commentChar (c : Char) : Bool := !(c = '{' || c = '}' || c = '\n' || c = '.')

/-- Characters allowed in a (non-nested) variation body. -/
def varChar (c : Char) : Bool :=
  !(c = '(' || c = ')' || c = '{' || c = '}' || c = '\n' || c = '.')

/-- The four PGN result markers. -/
inductive ResultMark
  | white
  | black
  | draw
  | star
  deriving DecidableEq

/-- Rendered text of a result marker. -/
def renderRes : ResultMark → List Char
  | .white => "1-0".toList
  | .black => "0-1".toList
  | .draw => "1/2-1/2".toList
  | .star => ['*']

/-- One movetext token of a chess.com-shaped PGN. -/
inductive PgnTok
  | num (ds : List Char) (dots : Nat)
  | san (cs : List Char)
  | comment (cs : List Char)
  | variation (cs : List Char)
  | res (r : ResultMark)
  deriving DecidableEq

/-- Rendered text of a token. -/
def renderTok : PgnTok → List Char
  | .num ds dots => ds ++ List.replicate dots '.'
  | .san cs => cs
  | .comment cs => '{' :: cs ++ ['}']
  | .variation cs => '(' :: cs ++ [')']
  | .res r => renderRes r

/-- Well-formedness of one token. -/
def WfTok : PgnTok → Prop
  | .num ds dots => ds ≠ [] ∧ (∀ c ∈ ds, isDigitChar c = true) ∧ 1 ≤ dots
  | .san cs => cs ≠ [] ∧ (∀ c ∈ cs, sanChar c = true) ∧ cs.Chain' sanPairOk
  | .comment cs => ∀ c ∈ cs, commentChar c = true
  | .variation cs => ∀ c ∈ cs, varChar c = true
  | .res _ => True

/-- The movetext line of a token list. -/
def renderToks (toks : List PgnTok) : List Char := joinSpace (toks.map renderTok)

/-- A chess.com-shaped PGN text: header lines each starting with `[` and
containing no newline, then one movetext line of well-formed tokens. -/
def renderPgnChars (headers : List (List Char)) (toks : List PgnTok) : List Char :=
  joinNl (headers ++ [renderToks toks])

/-- The same text as a string. -/
def renderPgn (headers : List (List Char)) (toks : List PgnTok) : String :=
  ⟨renderPgnChars headers toks⟩

/-- Well-formedness of a whole PGN: headers start with `[` and are
newline-free, and there is at least one well-formed movetext token. -/
structure WfPgn (headers : List (List Char)) (toks : List PgnTok) : Prop where
  headers_head : ∀ h ∈ headers, ∃ t, h = '[' :: t
  headers_nl : ∀ h ∈ headers, '\n' ∉ h
  toks_ne : toks ≠ []
  toks_wf : ∀ t ∈ toks, WfTok t

/-- Intermediate text shapes between the regex passes: literal runs of
spaces, leftover dots, SAN tokens, comments, variations and result
markers. -/
inductive Chunk
  | sp
  | dots (k : Nat)
  | sanC (cs : List Char)
  | commentC (cs : List Char)
  | varC (cs : List Char)
  | resC (r : ResultMark)
  deriving DecidableEq

/-- Rendered text of a chunk. -/
def renderChunk : Chunk → List Char
  | .sp => [' ']
  | .dots k => List.replicate k '.'
  | .sanC cs => cs
  | .commentC cs => '{' :: cs ++ ['}']
  | .varC cs => '(' :: cs ++ [')']
  | .resC r => renderRes r

/-- Concatenated text of a chunk list. -/
def renderChunks : List Chunk → List Char
  | [] => []
  | c :: cs => renderChunk c ++ renderChunks cs

/-- The chunk a non-number token survives the move-number pass as. -/
def chunk1 : PgnTok → Chunk
  | .num _ dots => Chunk.dots dots
  | .san cs => .sanC cs
  | .comment cs => .commentC cs
  | .variation cs => .varC cs
  | .res r => .resC r

/-- The chunk sequence the movetext becomes after the move-number pass: each
`n.`-style number disappears together with its following space; each
`n...`-style number leaves its surplus dots. -/
def stage1 : List PgnTok → List Chunk
  | [] => []
  | [PgnTok.num _ dots] => if dots = 1 then [] else [Chunk.dots (dots - 1)]
  | [t] => [chunk1 t]
  | PgnTok.num _ dots :: rest =>
      if dots = 1 then stage1 rest else Chunk.dots (dots - 1) :: Chunk.sp :: stage1 rest
  | t :: rest => chunk1 t :: Chunk.sp :: stage1 rest

theorem joinSpace_cons_cons (l l2 : List Char) (ls : List (List Char)) :
    joinSpace (l :: l2 :: ls) = l ++ ' ' :: joinSpace (l2 :: ls) := rfl

theorem isJsSpace_cases (c : Char) (h : isJsSpace c = true) :
    c = ' ' ∨ c = '\t' ∨ c = '\n' ∨ c = '\r' ∨ c = '\x0b' ∨ c = '\x0c' := by
  simp only [isJsSpace, Bool.or_eq_true, decide_eq_true_eq] at h
  tauto

theorem digit_not_space (c : Char) (h : isDigitChar c = true) : isJsSpace c = false := by
  by_contra hc
  rcases isJsSpace_cases c (by simpa using hc) with rfl | rfl | rfl | rfl | rfl | rfl <;>
    exact absurd h (by decide)

theorem sanChar_not_space (c : Char) (h : sanChar c = true) : isJsSpace c = false := by
  by_contra hc
  rcases isJsSpace_cases c (by simpa using hc) with rfl | rfl | rfl | rfl | rfl | rfl <;>
    exact absurd h (by decide)

/-- Every well-formed token renders to a non-empty text whose first character
is not whitespace and not `[`. -/
theorem renderTok_head (t : PgnTok) (h : WfTok t) :
    ∃ c rest, renderTok t = c :: rest ∧ isJsSpace c = false ∧ c ≠ '[' := by
  cases t with
  | num ds dots =>
    obtain ⟨hne, hd, -⟩ := h
    cases ds with
    | nil => exact absurd rfl hne
    | cons d ds' =>
      refine ⟨d, ds' ++ List.replicate dots '.', rfl, ?_, ?_⟩
      · exact digit_not_space d (hd d (List.mem_cons_self d ds'))
      · intro hh
        have := hd d (List.mem_cons_self d ds')
        rw [hh] at this
        exact absurd this (by decide)
  | san cs =>
    obtain ⟨hne, hm, -⟩ := h
    cases cs with
    | nil => exact absurd rfl hne
    | cons c cs' =>
      refine ⟨c, cs', rfl, sanChar_not_space c (hm c (List.mem_cons_self c cs')), ?_⟩
      intro hh
      have := hm c (List.mem_cons_self c cs')
      rw [hh] at this
      exact absurd this (by decide)
  | comment cs => exact ⟨'{', cs ++ ['}'], rfl, by decide, by decide⟩
  | variation cs => exact ⟨'(', cs ++ [')'], rfl, by decide, by decide⟩
  | res r => cases r <;> exact ⟨_, _, rfl, by decide, by decide⟩

/-- Non-number tokens render dot-free. -/
theorem renderTok_no_dot (t : PgnTok) (h : WfTok t) :
    (∀ ds dots, t ≠ .num ds dots) → '.' ∉ renderTok t := by
  intro hn hmem
  cases t with
  | num ds dots => exact hn ds dots rfl
  | san cs =>
    obtain ⟨-, hm, -⟩ := h
    exact absurd (hm '.' hmem) (by decide)
  | comment cs =>
    rcases List.mem_cons.mp hmem with hh | hh
    · exact absurd hh (by decide)
    · rcases List.mem_append.mp hh with hh2 | hh2
      · exact absurd (h '.' hh2) (by decide)
      · exact absurd (List.mem_singleton.mp hh2) (by decide)
  | variation cs =>
    rcases List.mem_cons.mp hmem with hh | hh
    · exact absurd hh (by decide)
    · rcases List.mem_append.mp hh with hh2 | hh2
      · exact absurd (h '.' hh2) (by decide)
      · exact absurd (List.mem_singleton.mp hh2) (by decide)
  | res r => cases r <;> exact absurd hmem (by decide)

/-- For a non-number token the surviving chunk renders identically. -/
theorem renderChunk_chunk1 (t : PgnTok) (hn : ∀ ds dots, t ≠ .num ds dots) :
    renderChunk (chunk1 t) = renderTok t := by
  cases t with
  | num ds dots => exact absurd rfl (hn ds dots)
  | san cs => rfl
  | comment cs => rfl
  | variation cs => rfl
  | res r => rfl

theorem scanReplace_matchStep' (m : List Char → Option (List Char))
    (hm : ∀ c cs r, m (c :: cs) = some r → r.length ≤ cs.length)
    (l rest : List Char) (hl : l ≠ []) (h : m l = some rest) :
    scanReplace m l = scanReplace m rest := by
  cases l with
  | nil => exact absurd rfl hl
  | cons c cs => exact scanReplace_matchStep m hm c cs rest h

/-- The move-number pass transforms the rendered movetext into the stage-1
chunk sequence. -/
theorem pass1_render (toks : List PgnTok) (hw : ∀ t ∈ toks, WfTok t) :
    scanReplace numDotAt (renderToks toks) = renderChunks (stage1 toks) := by
  induction toks with
  | nil => rfl
  | cons t rest ih =>
    have hwt : WfTok t := hw t (List.mem_cons_self t rest)
    have hwr : ∀ u ∈ rest, WfTok u := fun u hu => hw u (List.mem_cons_of_mem t hu)
    cases rest with
    | nil =>
      cases t with
      | num ds dots =>
        obtain ⟨hne, hd, h1⟩ := hwt
        have htext : renderToks [PgnTok.num ds dots] = ds ++ List.replicate dots '.' ++ [] := by
          simp [renderToks, renderTok, joinSpace]
        rw [htext,
          scanReplace_matchStep' numDotAt numDotAt_length _ _
            (fun hh => hne (List.append_eq_nil.mp (List.append_eq_nil.mp hh).1).1)
            (numDotAt_match_num ds dots [] hne hd h1)]
        have hdw : (List.replicate (dots - 1) '.' ++ ([] : List Char)).dropWhile isJsSpace
            = List.replicate (dots - 1) '.' := by
          rw [List.append_nil]
          cases hk : dots - 1 with
          | zero => rfl
          | succ k => rw [List.replicate_succ, List.dropWhile_cons, if_neg (by decide)]
        rw [hdw, show List.replicate (dots - 1) '.' =
            List.replicate (dots - 1) '.' ++ ([] : List Char) by simp,
          scanReplace_append_head numDotAt (fun c => isDigitChar c = false)
            numDotAt_none_of_head _ _
            (fun c hc => by rw [List.eq_of_mem_replicate hc]; decide)]
        have hout : scanReplace numDotAt [] = [] := rfl
        rw [hout]
        by_cases hdots : dots = 1
        · subst hdots
          simp [stage1, renderChunks, scanReplace, scanReplaceFuel]
        · simp [stage1, hdots, renderChunks, renderChunk, scanReplace, scanReplaceFuel]
      | san cs =>
        rw [show renderToks [PgnTok.san cs] = renderTok (PgnTok.san cs) ++ [] by
            simp [renderToks, joinSpace],
          scanReplace_numDot_seg _ []
            (renderTok_no_dot _ hwt (fun _ _ hh => by cases hh)) (Or.inl rfl)]
        simp [stage1, renderChunks, renderChunk, chunk1, renderTok, renderRes, scanReplace, scanReplaceFuel]
      | comment cs =>
        rw [show renderToks [PgnTok.comment cs] = renderTok (PgnTok.comment cs) ++ [] by
            simp [renderToks, joinSpace],
          scanReplace_numDot_seg _ []
            (renderTok_no_dot _ hwt (fun _ _ hh => by cases hh)) (Or.inl rfl)]
        simp [stage1, renderChunks, renderChunk, chunk1, renderTok, renderRes, scanReplace, scanReplaceFuel]
      | variation cs =>
        rw [show renderToks [PgnTok.variation cs] = renderTok (PgnTok.variation cs) ++ [] by
            simp [renderToks, joinSpace],
          scanReplace_numDot_seg _ []
            (renderTok_no_dot _ hwt (fun _ _ hh => by cases hh)) (Or.inl rfl)]
        simp [stage1, renderChunks, renderChunk, chunk1, renderTok, renderRes, scanReplace, scanReplaceFuel]
      | res r =>
        rw [show renderToks [PgnTok.res r] = renderTok (PgnTok.res r) ++ [] by
            simp [renderToks, joinSpace],
          scanReplace_numDot_seg _ []
            (renderTok_no_dot _ hwt (fun _ _ hh => by cases hh)) (Or.inl rfl)]
        simp [stage1, renderChunks, renderChunk, chunk1, renderTok, renderRes, scanReplace, scanReplaceFuel]
    | cons r0 rest' =>
      have hjoin : renderToks (t :: r0 :: rest')
          = renderTok t ++ ' ' :: renderToks (r0 :: rest') := by
        simp [renderToks, List.map_cons, joinSpace_cons_cons]
      obtain ⟨c0, crest, hc0, hc0s, -⟩ :=
        renderTok_head r0 (hwr r0 (List.mem_cons_self r0 rest'))
      have hjr : ∃ tl, renderToks (r0 :: rest') = c0 :: tl := by
        cases rest' with
        | nil => exact ⟨crest, by simpa [renderToks, joinSpace] using hc0⟩
        | cons r1 rest2 =>
          refine ⟨crest ++ ' ' :: renderToks (r1 :: rest2), ?_⟩
          rw [show renderToks (r0 :: r1 :: rest2)
              = renderTok r0 ++ ' ' :: renderToks (r1 :: rest2) by
              simp [renderToks, List.map_cons, joinSpace_cons_cons], hc0]
          rfl
      obtain ⟨jtl, hjtl⟩ := hjr
      have hskipsp : scanReplace numDotAt (' ' :: renderToks (r0 :: rest'))
          = ' ' :: scanReplace numDotAt (renderToks (r0 :: rest')) :=
        scanReplace_skip numDotAt ' ' _ (numDotAt_none_of_head ' ' _ (by decide))
      cases t with
      | num ds dots =>
        obtain ⟨hne, hd, h1⟩ := hwt
        have htext : renderToks (PgnTok.num ds dots :: r0 :: rest')
            = ds ++ List.replicate dots '.' ++ (' ' :: renderToks (r0 :: rest')) := by
          rw [hjoin]; simp [renderTok, List.append_assoc]
        rw [htext,
          scanReplace_matchStep' numDotAt numDotAt_length _ _
            (fun hh => List.cons_ne_nil ' ' _ (List.append_eq_nil.mp hh).2)
            (numDotAt_match_num ds dots _ hne hd h1)]
        by_cases hdots : dots = 1
        · subst hdots
          have hdw : (List.replicate (1 - 1) '.' ++ (' ' :: renderToks (r0 :: rest'))).dropWhile
              isJsSpace = renderToks (r0 :: rest') := by
            rw [show (1 : Nat) - 1 = 0 from rfl]
            rw [List.replicate_zero, List.nil_append, List.dropWhile_cons,
              if_pos (by decide), hjtl, List.dropWhile_cons, if_neg (by simp [hc0s])]
          rw [hdw, ih hwr]
          simp [stage1, renderChunks, scanReplace, scanReplaceFuel]
        · obtain ⟨k, hk⟩ : ∃ k, dots - 1 = k + 1 := ⟨dots - 2, by omega⟩
          have hdw : (List.replicate (dots - 1) '.' ++ (' ' :: renderToks (r0 :: rest'))).dropWhile
              isJsSpace = List.replicate (dots - 1) '.' ++ (' ' :: renderToks (r0 :: rest')) := by
            rw [hk, List.replicate_succ, List.cons_append, List.dropWhile_cons,
              if_neg (by decide)]
          rw [hdw,
            scanReplace_append_head numDotAt (fun c => isDigitChar c = false)
              numDotAt_none_of_head _ _
              (fun c hc => by rw [List.eq_of_mem_replicate hc]; decide),
            hskipsp, ih hwr]
          simp [stage1, hdots, renderChunks, renderChunk, scanReplace, scanReplaceFuel]
      | san cs =>
        rw [hjoin,
          scanReplace_numDot_seg _ _
            (renderTok_no_dot _ hwt (fun _ _ hh => by cases hh))
            (Or.inr ⟨_, rfl⟩),
          hskipsp, ih hwr]
        simp [stage1, renderChunks, renderChunk, chunk1, renderTok, renderRes, scanReplace, scanReplaceFuel]
      | comment cs =>
        rw [hjoin,
          scanReplace_numDot_seg _ _
            (renderTok_no_dot _ hwt (fun _ _ hh => by cases hh))
            (Or.inr ⟨_, rfl⟩),
          hskipsp, ih hwr]
        simp [stage1, renderChunks, renderChunk, chunk1, renderTok, renderRes, scanReplace, scanReplaceFuel]
      | variation cs =>
        rw [hjoin,
          scanReplace_numDot_seg _ _
            (renderTok_no_dot _ hwt (fun _ _ hh => by cases hh))
            (Or.inr ⟨_, rfl⟩),
          hskipsp, ih hwr]
        simp [stage1, renderChunks, renderChunk, chunk1, renderTok, renderRes, scanReplace, scanReplaceFuel]
      | res r =>
        rw [hjoin,
          scanReplace_numDot_seg _ _
            (renderTok_no_dot _ hwt (fun _ _ hh => by cases hh))
            (Or.inr ⟨_, rfl⟩),
          hskipsp, ih hwr]
        simp [stage1, renderChunks, renderChunk, chunk1, renderTok, renderRes, scanReplace, scanReplaceFuel]

/-- Well-formedness of a chunk. -/
def WfChunk : Chunk → Prop
  | .sp => True
  | .dots k => 1 ≤ k
  | .sanC cs => cs ≠ [] ∧ (∀ c ∈ cs, sanChar c = true) ∧ cs.Chain' sanPairOk
  | .commentC cs => ∀ c ∈ cs, commentChar c = true
  | .varC cs => ∀ c ∈ cs, varChar c = true
  | .resC _ => True

def isCommentC : Chunk → Bool
  | .commentC _ => true
  | _ => false

def isVarC : Chunk → Bool
  | .varC _ => true
  | _ => false

def isResC : Chunk → Bool
  | .resC _ => true
  | _ => false

theorem chunk1_wf (t : PgnTok) (h : WfTok t) : WfChunk (chunk1 t) := by
  cases t with
  | num ds dots => exact Nat.le_refl 1 |>.trans h.2.2
  | san cs => exact h
  | comment cs => exact h
  | variation cs => exact h
  | res r => trivial

/-- Chunks produced by the move-number pass are well-formed. -/
theorem stage1_wf (toks : List PgnTok) (hw : ∀ t ∈ toks, WfTok t) :
    ∀ c ∈ stage1 toks, WfChunk c := by
  induction toks with
  | nil => intro c hc; cases hc
  | cons t rest ih =>
    have hwt : WfTok t := hw t (List.mem_cons_self t rest)
    have hwr : ∀ u ∈ rest, WfTok u := fun u hu => hw u (List.mem_cons_of_mem t hu)
    intro c hc
    cases rest with
    | nil =>
      cases t with
      | num ds dots =>
        by_cases hdots : dots = 1
        · rw [show stage1 [PgnTok.num ds dots] = if dots = 1 then []
              else [Chunk.dots (dots - 1)] from rfl, if_pos hdots] at hc
          cases hc
        · rw [show stage1 [PgnTok.num ds dots] = if dots = 1 then []
              else [Chunk.dots (dots - 1)] from rfl, if_neg hdots] at hc
          rw [List.mem_singleton.mp hc]
          have := hwt.2.2
          show 1 ≤ dots - 1
          omega
      | san cs => rw [List.mem_singleton.mp hc]; exact chunk1_wf _ hwt
      | comment cs => rw [List.mem_singleton.mp hc]; exact chunk1_wf _ hwt
      | variation cs => rw [List.mem_singleton.mp hc]; exact chunk1_wf _ hwt
      | res r => rw [List.mem_singleton.mp hc]; exact chunk1_wf _ hwt
    | cons r0 rest' =>
      cases t with
      | num ds dots =>
        by_cases hdots : dots = 1
        · rw [show stage1 (PgnTok.num ds dots :: r0 :: rest') = if dots = 1 then
              stage1 (r0 :: rest') else Chunk.dots (dots - 1) :: Chunk.sp ::
              stage1 (r0 :: rest') from rfl, if_pos hdots] at hc
          exact ih hwr c hc
        · rw [show stage1 (PgnTok.num ds dots :: r0 :: rest') = if dots = 1 then
              stage1 (r0 :: rest') else Chunk.dots (dots - 1) :: Chunk.sp ::
              stage1 (r0 :: rest') from rfl, if_neg hdots] at hc
          rcases List.mem_cons.mp hc with rfl | hc2
          · have := hwt.2.2
            show 1 ≤ dots - 1
            omega
          · rcases List.mem_cons.mp hc2 with rfl | hc3
            · trivial
            · exact ih hwr c hc3
      | san cs =>
        rcases List.mem_cons.mp hc with rfl | hc2
        · exact chunk1_wf _ hwt
        · rcases List.mem_cons.mp hc2 with rfl | hc3
          · trivial
          · exact ih hwr c hc3
      | comment cs =>
        rcases List.mem_cons.mp hc with rfl | hc2
        · exact chunk1_wf _ hwt
        · rcases List.mem_cons.mp hc2 with rfl | hc3
          · trivial
          · exact ih hwr c hc3
      | variation cs =>
        rcases List.mem_cons.mp hc with rfl | hc2
        · exact chunk1_wf _ hwt
        · rcases List.mem_cons.mp hc2 with rfl | hc3
          · trivial
          · exact ih hwr c hc3
      | res r =>
        rcases List.mem_cons.mp hc with rfl | hc2
        · exact chunk1_wf _ hwt
        · rcases List.mem_cons.mp hc2 with rfl | hc3
          · trivial
          · exact ih hwr c hc3

/-- Space separation: between any two non-space chunks there is a space. -/
def SepOk (l : List Chunk) : Prop :=
  l.Chain' (fun a b => a = Chunk.sp ∨ b = Chunk.sp)

theorem stage1_sepOk (toks : List PgnTok) : SepOk (stage1 toks) := by
  induction toks with
  | nil => exact List.chain'_nil
  | cons t rest ih =>
    cases rest with
    | nil =>
      cases t with
      | num ds dots =>
        by_cases hdots : dots = 1
        · rw [SepOk, show stage1 [PgnTok.num ds dots] = if dots = 1 then []
            else [Chunk.dots (dots - 1)] from rfl, if_pos hdots]
          exact List.chain'_nil
        · rw [SepOk, show stage1 [PgnTok.num ds dots] = if dots = 1 then []
            else [Chunk.dots (dots - 1)] from rfl, if_neg hdots]
          exact List.chain'_singleton _
      | san cs => exact List.chain'_singleton _
      | comment cs => exact List.chain'_singleton _
      | variation cs => exact List.chain'_singleton _
      | res r => exact List.chain'_singleton _
    | cons r0 rest' =>
      have hshape : ∀ x : Chunk, SepOk (x :: Chunk.sp :: stage1 (r0 :: rest')) := by
        intro x
        rw [SepOk, List.chain'_cons]
        refine ⟨Or.inr rfl, ?_⟩
        rw [List.chain'_cons']
        exact ⟨fun y _ => Or.inl rfl, ih⟩
      cases t with
      | num ds dots =>
        by_cases hdots : dots = 1
        · rw [SepOk, show stage1 (PgnTok.num ds dots :: r0 :: rest') = if dots = 1 then
              stage1 (r0 :: rest') else Chunk.dots (dots - 1) :: Chunk.sp ::
              stage1 (r0 :: rest') from rfl, if_pos hdots]
          exact ih
        · rw [SepOk, show stage1 (PgnTok.num ds dots :: r0 :: rest') = if dots = 1 then
              stage1 (r0 :: rest') else Chunk.dots (dots - 1) :: Chunk.sp ::
              stage1 (r0 :: rest') from rfl, if_neg hdots]
          exact hshape _
      | san cs => exact hshape _
      | comment cs => exact hshape _
      | variation cs => exact hshape _
      | res r => exact hshape _

/-- Filtering away (only) non-space chunks keeps the separation invariant. -/
theorem sepOk_filter (p : Chunk → Bool) (hp : p Chunk.sp = true) :
    ∀ l : List Chunk, SepOk l → SepOk (l.filter p) := by
  intro l
  induction l with
  | nil => intro _; exact List.chain'_nil
  | cons a rest ih =>
    intro h
    have htail : SepOk rest := h.tail
    by_cases ha : p a = true
    · rw [List.filter_cons_of_pos ha]
      rw [SepOk, List.chain'_cons']
      refine ⟨?_, ih htail⟩
      intro y hy
      by_cases hasp : a = Chunk.sp
      · exact Or.inl hasp
      · cases rest with
        | nil => simp at hy
        | cons b rest2 =>
          have hab : a = Chunk.sp ∨ b = Chunk.sp := (List.chain'_cons.mp h).1
          have hb : b = Chunk.sp := hab.resolve_left hasp
          have hpb : p b = true := hb ▸ hp
          rw [List.filter_cons_of_pos hpb] at hy
          have hyb : b = y := by simpa using hy
          exact Or.inr (hyb ▸ hb)
    · rw [List.filter_cons_of_neg (by simpa using ha)]
      exact ih htail

theorem dropWhile_append_all {p : Char → Bool} (a b : List Char) (h : ∀ c ∈ a, p c = true) :
    (a ++ b).dropWhile p = b.dropWhile p := by
  induction a with
  | nil => rfl
  | cons c cs ih =>
    rw [List.cons_append, List.dropWhile_cons, if_pos (h c (List.mem_cons_self c cs)),
      ih (fun d hd => h d (List.mem_cons_of_mem c hd))]

/-- The brace pass fires on a rendered comment, deleting it whole. -/
theorem braceAt_match (cs tail : List Char) (h : ∀ c ∈ cs, commentChar c = true) :
    braceAt ('{' :: (cs ++ '}' :: tail)) = some tail := by
  have hdw : (cs ++ '}' :: tail).dropWhile (fun c => !(c = '}')) = '}' :: tail := by
    rw [dropWhile_append_all cs _ (fun c hc => by
        have h2 := h c hc
        have hne : c ≠ '}' := by
          intro hh; rw [hh] at h2; exact absurd h2 (by decide)
        simp [hne]),
      List.dropWhile_cons]
    simp
  simp only [braceAt, if_pos rfl]
  unfold closeSplit
  rw [hdw]
  simp

/-- The paren pass fires on a rendered variation, deleting it whole. -/
theorem parenAt_match (cs tail : List Char) (h : ∀ c ∈ cs, varChar c = true) :
    parenAt ('(' :: (cs ++ ')' :: tail)) = some tail := by
  have hdw : (cs ++ ')' :: tail).dropWhile (fun c => !(c = ')')) = ')' :: tail := by
    rw [dropWhile_append_all cs _ (fun c hc => by
        have h2 := h c hc
        have hne : c ≠ ')' := by
          intro hh; rw [hh] at h2; exact absurd h2 (by decide)
        simp [hne]),
      List.dropWhile_cons]
    simp
  simp only [parenAt, if_pos rfl]
  unfold closeSplit
  rw [hdw]
  simp

theorem sanChar_ne (c : Char) (h : sanChar c = true) :
    c ≠ '{' ∧ c ≠ '}' ∧ c ≠ '(' ∧ c ≠ ')' ∧ c ≠ '*' ∧ c ≠ '/' ∧ c ≠ '[' ∧ c ≠ '\n'
      ∧ c ≠ '.' := by
  refine ⟨?_, ?_, ?_, ?_, ?_, ?_, ?_, ?_, ?_⟩ <;>
    (intro hh; rw [hh] at h; exact absurd h (by decide))

/-- A non-comment chunk renders brace-free. -/
theorem renderChunk_no_brace (c : Chunk) (h : WfChunk c) (hc : isCommentC c = false) :
    '{' ∉ renderChunk c := by
  intro hmem
  cases c with
  | sp => exact absurd (List.mem_singleton.mp hmem) (by decide)
  | dots k => exact absurd (List.eq_of_mem_replicate hmem) (by decide)
  | sanC cs => exact (sanChar_ne '{' (h.2.1 '{' hmem)).1 rfl
  | commentC cs => exact absurd hc (by simp [isCommentC])
  | varC cs =>
    rcases List.mem_cons.mp hmem with hh | hh
    · exact absurd hh (by decide)
    · rcases List.mem_append.mp hh with hh2 | hh2
      · have := h '{' hh2
        exact absurd this (by decide)
      · exact absurd (List.mem_singleton.mp hh2) (by decide)
  | resC r => cases r <;> exact absurd hmem (by decide)

/-- A non-comment non-variation chunk renders paren-free. -/
theorem renderChunk_no_paren (c : Chunk) (h : WfChunk c) (hc : isCommentC c = false)
    (hv : isVarC c = false) : '(' ∉ renderChunk c := by
  intro hmem
  cases c with
  | sp => exact absurd (List.mem_singleton.mp hmem) (by decide)
  | dots k => exact absurd (List.eq_of_mem_replicate hmem) (by decide)
  | sanC cs => exact (sanChar_ne '(' (h.2.1 '(' hmem)).2.2.1 rfl
  | commentC cs => exact absurd hc (by simp [isCommentC])
  | varC cs => exact absurd hv (by simp [isVarC])
  | resC r => cases r <;> exact absurd hmem (by decide)

/-- The brace pass deletes exactly the comment chunks. -/
theorem pass2_render (chunks : List Chunk) (hw : ∀ c ∈ chunks, WfChunk c) :
    scanReplace braceAt (renderChunks chunks)
      = renderChunks (chunks.filter (fun c => !isCommentC c)) := by
  induction chunks with
  | nil => rfl
  | cons c rest ih =>
    have hwc : WfChunk c := hw c (List.mem_cons_self c rest)
    have hwr : ∀ u ∈ rest, WfChunk u := fun u hu => hw u (List.mem_cons_of_mem c hu)
    show scanReplace braceAt (renderChunk c ++ renderChunks rest) = _
    by_cases hcom : isCommentC c = true
    · obtain ⟨cs, rfl⟩ : ∃ cs, c = Chunk.commentC cs := by
        cases c <;> simp [isCommentC] at hcom ⊢
      have htext : renderChunk (Chunk.commentC cs) ++ renderChunks rest
          = '{' :: (cs ++ '}' :: renderChunks rest) := by
        show ('{' :: cs ++ ['}']) ++ renderChunks rest = _
        simp [List.append_assoc]
      rw [htext,
        scanReplace_matchStep braceAt braceAt_length _ _ _ (braceAt_match cs _ hwc),
        ih hwr, List.filter_cons_of_neg (by simp [isCommentC])]
    · rw [scanReplace_append_head braceAt (fun ch => ch ≠ '{') braceAt_none_of_head _ _
        (fun d hd hh => renderChunk_no_brace c hwc (by simpa using hcom) (hh ▸ hd)),
        ih hwr, List.filter_cons_of_pos (by simpa using hcom)]
      rfl

/-- The paren pass deletes exactly the variation chunks (no comments
remain). -/
theorem pass3_render (chunks : List Chunk) (hw : ∀ c ∈ chunks, WfChunk c)
    (hnc : ∀ c ∈ chunks, isCommentC c = false) :
    scanReplace parenAt (renderChunks chunks)
      = renderChunks (chunks.filter (fun c => !isVarC c)) := by
  induction chunks with
  | nil => rfl
  | cons c rest ih =>
    have hwc : WfChunk c := hw c (List.mem_cons_self c rest)
    have hwr : ∀ u ∈ rest, WfChunk u := fun u hu => hw u (List.mem_cons_of_mem c hu)
    have hncr : ∀ u ∈ rest, isCommentC u = false :=
      fun u hu => hnc u (List.mem_cons_of_mem c hu)
    show scanReplace parenAt (renderChunk c ++ renderChunks rest) = _
    by_cases hvar : isVarC c = true
    · obtain ⟨cs, rfl⟩ : ∃ cs, c = Chunk.varC cs := by
        cases c <;> simp [isVarC] at hvar ⊢
      have htext : renderChunk (Chunk.varC cs) ++ renderChunks rest
          = '(' :: (cs ++ ')' :: renderChunks rest) := by
        show ('(' :: cs ++ [')']) ++ renderChunks rest = _
        simp [List.append_assoc]
      rw [htext,
        scanReplace_matchStep parenAt parenAt_length _ _ _ (parenAt_match cs _ hwc),
        ih hwr hncr, List.filter_cons_of_neg (by simp [isVarC])]
    · rw [scanReplace_append_head parenAt (fun ch => ch ≠ '(') parenAt_none_of_head _ _
        (fun d hd hh =>
          renderChunk_no_paren c hwc (hnc c (List.mem_cons_self c rest))
            (by simpa using hvar) (hh ▸ hd)),
        ih hwr hncr, List.filter_cons_of_pos (by simpa using hvar)]
      rfl

/-- The result pass fires on each rendered marker, deleting it whole. -/
theorem resultAt_match (r : ResultMark) (tail : List Char) :
    resultAt (renderRes r ++ tail) = some tail := by
  cases r <;> simp [resultAt, renderRes, List.isPrefixOf]

theorem resultAt_none_digit (c d : Char) (rest : List Char) (h10 : c = '1' ∨ c = '0')
    (hd1 : d ≠ '-') (hd2 : d ≠ '/') : resultAt (c :: d :: rest) = none := by
  have e1 : (('-' : Char) == d) = false := beq_eq_false_iff_ne.mpr (fun hh => hd1 hh.symm)
  have e2 : (('/' : Char) == d) = false := beq_eq_false_iff_ne.mpr (fun hh => hd2 hh.symm)
  rcases h10 with rfl | rfl
  · simp [resultAt, List.isPrefixOf, e1, e2]
  · simp [resultAt, List.isPrefixOf, e1]

theorem resultAt_none_single (c : Char) (hstar : c ≠ '*') : resultAt [c] = none := by
  simp [resultAt, List.isPrefixOf, hstar]

/-- The result pass cannot fire anywhere inside a SAN token followed by a
space or the end of the text. -/
theorem resultAt_none_san_suffix (cs : List Char) (hm : ∀ c ∈ cs, sanChar c = true)
    (hch : cs.Chain' sanPairOk) (tail : List Char)
    (htail : tail = [] ∨ ∃ tl, tail = ' ' :: tl) :
    ∀ s2, s2 <:+ cs → s2 ≠ [] → resultAt (s2 ++ tail) = none := by
  intro s2 hs hne
  cases s2 with
  | nil => exact absurd rfl hne
  | cons c r =>
    have hc : sanChar c = true := hm c (hs.subset (List.mem_cons_self c r))
    have hcstar : c ≠ '*' := (sanChar_ne c hc).2.2.2.2.1
    by_cases h10 : c = '1' ∨ c = '0'
    · cases r with
      | nil =>
        rcases htail with rfl | ⟨tl, rfl⟩
        · rw [List.append_nil]
          exact resultAt_none_single c hcstar
        · exact resultAt_none_digit c ' ' tl h10 (by decide) (by decide)
      | cons d r' =>
        have hd : sanChar d = true :=
          hm d (hs.subset (List.mem_cons_of_mem c (List.mem_cons_self d r')))
        have hpair : sanPairOk c d := (List.chain'_cons.mp (hch.suffix hs)).1
        have hddash : d ≠ '-' := by
          intro hh
          exact hpair ⟨by rcases h10 with rfl | rfl <;> decide, hh⟩
        exact resultAt_none_digit c d (r' ++ tail) h10 hddash (sanChar_ne d hd).2.2.2.2.2.1
    · push_neg at h10
      exact resultAt_none_of_head c _ h10.1 h10.2 hcstar

/-- The result pass deletes exactly the result-marker chunks (only spaces,
dots, SAN tokens and markers remain at this stage). -/
theorem pass4_render (chunks : List Chunk) (hw : ∀ c ∈ chunks, WfChunk c)
    (hsep : SepOk chunks)
    (honly : ∀ c ∈ chunks, isCommentC c = false ∧ isVarC c = false) :
    scanReplace resultAt (renderChunks chunks)
      = renderChunks (chunks.filter (fun c => !isResC c)) := by
  induction chunks with
  | nil => rfl
  | cons c rest ih =>
    have hwc : WfChunk c := hw c (List.mem_cons_self c rest)
    have hwr : ∀ u ∈ rest, WfChunk u := fun u hu => hw u (List.mem_cons_of_mem c hu)
    have hor : ∀ u ∈ rest, isCommentC u = false ∧ isVarC u = false :=
      fun u hu => honly u (List.mem_cons_of_mem c hu)
    have ihr := ih hwr hsep.tail hor
    show scanReplace resultAt (renderChunk c ++ renderChunks rest) = _
    cases c with
    | sp =>
      rw [scanReplace_append_head resultAt
          (fun ch => ch ≠ '1' ∧ ch ≠ '0' ∧ ch ≠ '*')
          (fun c2 cs2 hc2 => resultAt_none_of_head c2 cs2 hc2.1 hc2.2.1 hc2.2.2) _ _
          (fun d hd => by
            have hd2 : d = ' ' := List.mem_singleton.mp hd
            subst hd2
            exact ⟨by decide, by decide, by decide⟩),
        ihr, List.filter_cons_of_pos (by simp [isResC])]
      rfl
    | dots k =>
      rw [scanReplace_append_head resultAt
          (fun ch => ch ≠ '1' ∧ ch ≠ '0' ∧ ch ≠ '*')
          (fun c2 cs2 hc2 => resultAt_none_of_head c2 cs2 hc2.1 hc2.2.1 hc2.2.2) _ _
          (fun d hd => by
            have hd2 := List.eq_of_mem_replicate hd
            subst hd2
            exact ⟨by decide, by decide, by decide⟩),
        ihr, List.filter_cons_of_pos (by simp [isResC])]
      rfl
    | sanC cs =>
      have htail : renderChunks rest = [] ∨ ∃ tl, renderChunks rest = ' ' :: tl := by
        cases rest with
        | nil => exact Or.inl rfl
        | cons b rest2 =>
          have hb : Chunk.sanC cs = Chunk.sp ∨ b = Chunk.sp := (List.chain'_cons.mp hsep).1
          have hbsp : b = Chunk.sp := hb.resolve_left (by intro hh; cases hh)
          exact Or.inr ⟨renderChunks rest2, by rw [hbsp]; rfl⟩
      rw [show renderChunk (Chunk.sanC cs) = cs from rfl,
        scanReplace_append resultAt _ _
          (resultAt_none_san_suffix cs hwc.2.1 hwc.2.2 _ htail),
        ihr, List.filter_cons_of_pos (by simp [isResC])]
      rfl
    | commentC cs =>
      exact absurd (honly _ (List.mem_cons_self _ _)).1 (by simp [isCommentC])
    | varC cs =>
      exact absurd (honly _ (List.mem_cons_self _ _)).2 (by simp [isVarC])
    | resC r =>
      rw [show renderChunk (Chunk.resC r) ++ renderChunks rest
            = renderRes r ++ renderChunks rest from rfl,
        scanReplace_matchStep' resultAt resultAt_length _ _
          (by cases r <;> simp [renderRes])
          (resultAt_match r _),
        ihr, List.filter_cons_of_neg (by simp [isResC])]

/-! #### The line-filtering stage -/

theorem jsSplitAux_no_sep (sep : Char) (a : List Char) (acc : List Char) (h : sep ∉ a) :
    jsSplitAux sep a acc = [acc.reverse ++ a] := by
  induction a generalizing acc with
  | nil => simp [jsSplitAux]
  | cons c cs ih =>
    rw [jsSplitAux,
      if_neg (show ¬c = sep from fun hh => h (hh ▸ List.mem_cons_self c cs)),
      ih (c :: acc) (fun hh => h (List.mem_cons_of_mem c hh))]
    simp

theorem jsSplitAux_sep (sep : Char) (a rest acc : List Char) (h : sep ∉ a) :
    jsSplitAux sep (a ++ sep :: rest) acc
      = (acc.reverse ++ a) :: jsSplitAux sep rest [] := by
  induction a generalizing acc with
  | nil => simp [jsSplitAux]
  | cons c cs ih =>
    rw [List.cons_append, jsSplitAux,
      if_neg (show ¬c = sep from fun hh => h (hh ▸ List.mem_cons_self c cs)),
      ih (c :: acc) (fun hh => h (List.mem_cons_of_mem c hh))]
    simp

theorem jsSplit_joinNl (lines : List (List Char)) (hne : lines ≠ [])
    (h : ∀ l ∈ lines, '\n' ∉ l) :
    jsSplitAux '\n' (joinNl lines) [] = lines := by
  induction lines with
  | nil => exact absurd rfl hne
  | cons l ls ih =>
    cases ls with
    | nil =>
      rw [show joinNl [l] = l from rfl,
        jsSplitAux_no_sep '\n' l [] (h l (List.mem_cons_self l []))]
      simp
    | cons l2 ls2 =>
      rw [show joinNl (l :: l2 :: ls2) = l ++ '\n' :: joinNl (l2 :: ls2) from rfl,
        jsSplitAux_sep '\n' l _ [] (h l (List.mem_cons_self l _)),
        ih (List.cons_ne_nil l2 ls2) (fun u hu => h u (List.mem_cons_of_mem l hu))]
      simp

theorem keepLine_header (t : List Char) : keepLine ('[' :: t) = false := by
  simp [keepLine, List.isPrefixOf]

theorem jsTrim_ne_nil_of_head (c : Char) (cs : List Char) (hns : isJsSpace c = false) :
    jsTrim (c :: cs) ≠ [] := by
  have hdw : (c :: cs).dropWhile isJsSpace = c :: cs := by
    rw [List.dropWhile_cons, if_neg (by simp [hns])]
  unfold jsTrim
  rw [hdw]
  intro hcon
  have hnil : (c :: cs).reverse.dropWhile isJsSpace = [] :=
    List.reverse_eq_nil_iff.mp hcon
  have hcmem : c ∈ (c :: cs).reverse := by simp
  have := List.dropWhile_eq_nil_iff.mp hnil c hcmem
  rw [hns] at this
  cases this

theorem keepLine_of_head (c : Char) (cs : List Char) (hns : isJsSpace c = false)
    (hnb : c ≠ '[') : keepLine (c :: cs) = true := by
  have h1 : ((['['] : List Char).isPrefixOf (c :: cs)) = false := by
    have : (('[' : Char) == c) = false := beq_eq_false_iff_ne.mpr (fun hh => hnb hh.symm)
    simp [List.isPrefixOf, this]
  have h2 := jsTrim_ne_nil_of_head c cs hns
  simp [keepLine, h1, List.isEmpty_iff, h2]

/-- Well-formed tokens render newline-free. -/
theorem renderTok_no_nl (t : PgnTok) (h : WfTok t) : '\n' ∉ renderTok t := by
  intro hmem
  cases t with
  | num ds dots =>
    rcases List.mem_append.mp hmem with hh | hh
    · exact absurd (h.2.1 '\n' hh) (by decide)
    · exact absurd (List.eq_of_mem_replicate hh) (by decide)
  | san cs => exact (sanChar_ne '\n' (h.2.1 '\n' hmem)).2.2.2.2.2.2.2.1 rfl
  | comment cs =>
    rcases List.mem_cons.mp hmem with hh | hh
    · exact absurd hh (by decide)
    · rcases List.mem_append.mp hh with hh2 | hh2
      · exact absurd (h '\n' hh2) (by decide)
      · exact absurd (List.mem_singleton.mp hh2) (by decide)
  | variation cs =>
    rcases List.mem_cons.mp hmem with hh | hh
    · exact absurd hh (by decide)
    · rcases List.mem_append.mp hh with hh2 | hh2
      · exact absurd (h '\n' hh2) (by decide)
      · exact absurd (List.mem_singleton.mp hh2) (by decide)
  | res r => cases r <;> exact absurd hmem (by decide)

theorem mem_joinSpace (parts : List (List Char)) (ch : Char) (h : ch ∈ joinSpace parts) :
    ch = ' ' ∨ ∃ p ∈ parts, ch ∈ p := by
  induction parts with
  | nil => cases h
  | cons l ls ih =>
    cases ls with
    | nil =>
      exact Or.inr ⟨l, List.mem_cons_self l [], h⟩
    | cons l2 ls2 =>
      rw [joinSpace_cons_cons] at h
      rcases List.mem_append.mp h with hh | hh
      · exact Or.inr ⟨l, List.mem_cons_self l _, hh⟩
      · rcases List.mem_cons.mp hh with rfl | hh2
        · exact Or.inl rfl
        · rcases ih hh2 with hsp | ⟨p, hp, hcp⟩
          · exact Or.inl hsp
          · exact Or.inr ⟨p, List.mem_cons_of_mem l hp, hcp⟩

theorem renderToks_no_nl (toks : List PgnTok) (hw : ∀ t ∈ toks, WfTok t) :
    '\n' ∉ renderToks toks := by
  intro hmem
  rcases mem_joinSpace _ _ hmem with hh | ⟨p, hp, hcp⟩
  · exact absurd hh (by decide)
  · obtain ⟨t, ht, rfl⟩ := List.mem_map.mp hp
    exact renderTok_no_nl t (hw t ht) hcp

/-- The movetext line of a non-empty well-formed token list starts with a
non-space, non-bracket character. -/
theorem renderToks_head (toks : List PgnTok) (hne : toks ≠ [])
    (hw : ∀ t ∈ toks, WfTok t) :
    ∃ c tl, renderToks toks = c :: tl ∧ isJsSpace c = false ∧ c ≠ '[' := by
  cases toks with
  | nil => exact absurd rfl hne
  | cons t rest =>
    obtain ⟨c, crest, hc, hcs, hcb⟩ := renderTok_head t (hw t (List.mem_cons_self t rest))
    cases rest with
    | nil => exact ⟨c, crest, by simpa [renderToks, joinSpace] using hc, hcs, hcb⟩
    | cons r0 rest' =>
      refine ⟨c, crest ++ ' ' :: renderToks (r0 :: rest'), ?_, hcs, hcb⟩
      rw [show renderToks (t :: r0 :: rest')
          = renderTok t ++ ' ' :: renderToks (r0 :: rest') by
          simp [renderToks, List.map_cons, joinSpace_cons_cons], hc]
      rfl

/-- The line stage of the extraction on a rendered PGN keeps exactly the
movetext line. -/
theorem lineStage_render (headers : List (List Char)) (toks : List PgnTok)
    (hw : WfPgn headers toks) :
    (jsSplitAux '\n' (renderPgnChars headers toks) []).filter keepLine
      = [renderToks toks] := by
  obtain ⟨c, tl, hhead, hcs, hcb⟩ := renderToks_head toks hw.toks_ne hw.toks_wf
  have hsplit : jsSplitAux '\n' (renderPgnChars headers toks) []
      = headers ++ [renderToks toks] := by
    apply jsSplit_joinNl
    · simp
    · intro l hl
      rcases List.mem_append.mp hl with hh | hh
      · exact hw.headers_nl l hh
      · rw [List.mem_singleton.mp hh]
        exact renderToks_no_nl toks hw.toks_wf
  rw [hsplit, List.filter_append]
  have h1 : headers.filter keepLine = [] := by
    rw [List.filter_eq_nil_iff]
    intro l hl
    obtain ⟨t2, rfl⟩ := hw.headers_head l hl
    simp [keepLine_header]
  have h2 : [renderToks toks].filter keepLine = [renderToks toks] := by
    rw [List.filter_singleton, hhead, keepLine_of_head c tl hcs hcb]
    rfl
  rw [h1, h2, List.nil_append]

/-! #### The cleaned output -/

/-- No leftover move-number shape: a digit is never immediately followed by
a dot, nor by a hyphen (the latter rules out result-marker shapes). -/
def noNumP (a b : Char) : Prop := ¬(isDigitChar a = true ∧ (b = '.' ∨ b = '-'))

/-- The chunks surviving all four regex passes. -/
def finalChunks (toks : List PgnTok) : List Chunk :=
  (((stage1 toks).filter (fun c => !isCommentC c)).filter
      (fun c => !isVarC c)).filter (fun c => !isResC c)

theorem mem_finalChunks (toks : List PgnTok) (c : Chunk) (h : c ∈ finalChunks toks) :
    c ∈ stage1 toks ∧ isCommentC c = false ∧ isVarC c = false ∧ isResC c = false := by
  have h3 := List.mem_filter.mp h
  have h2 := List.mem_filter.mp h3.1
  have h1 := List.mem_filter.mp h2.1
  exact ⟨h1.1, by simpa using h1.2, by simpa using h2.2, by simpa using h3.2⟩

theorem finalChunks_sepOk (toks : List PgnTok) : SepOk (finalChunks toks) :=
  sepOk_filter _ (by decide) _
    (sepOk_filter _ (by decide) _
      (sepOk_filter _ (by decide) _ (stage1_sepOk toks)))

theorem mem_renderChunks (l : List Chunk) (ch : Char) (h : ch ∈ renderChunks l) :
    ∃ c ∈ l, ch ∈ renderChunk c := by
  induction l with
  | nil => cases h
  | cons c cs ih =>
    rw [show renderChunks (c :: cs) = renderChunk c ++ renderChunks cs from rfl] at h
    rcases List.mem_append.mp h with hh | hh
    · exact ⟨c, List.mem_cons_self c cs, hh⟩
    · obtain ⟨d, hd, hchd⟩ := ih hh
      exact ⟨d, List.mem_cons_of_mem c hd, hchd⟩

/-- Every character of the fully stripped text is a space, a leftover dot or
a SAN character. -/
theorem finalChunks_chars (toks : List PgnTok) (hwt : ∀ t ∈ toks, WfTok t)
    (ch : Char) (h : ch ∈ renderChunks (finalChunks toks)) :
    ch = ' ' ∨ ch = '.' ∨ sanChar ch = true := by
  obtain ⟨c, hc, hch⟩ := mem_renderChunks _ ch h
  obtain ⟨hs, hnc, hnv, hnr⟩ := mem_finalChunks toks c hc
  have hwc := stage1_wf toks hwt c hs
  cases c with
  | sp => exact Or.inl (List.mem_singleton.mp hch)
  | dots k => exact Or.inr (Or.inl (List.eq_of_mem_replicate hch))
  | sanC cs => exact Or.inr (Or.inr (hwc.2.1 ch hch))
  | commentC cs => exact absurd hnc (by simp [isCommentC])
  | varC cs => exact absurd hnv (by simp [isVarC])
  | resC r => exact absurd hnr (by simp [isResC])

theorem chain_noNumP_replicate (k : Nat) : (List.replicate k '.').Chain' noNumP := by
  induction k with
  | zero => exact List.chain'_nil
  | succ n ih =>
    rw [List.replicate_succ]
    refine List.chain'_cons'.mpr ⟨?_, ih⟩
    intro b _ hcon
    exact absurd hcon.1 (by decide)

theorem chain_noNumP_san (cs : List Char) (hm : ∀ c ∈ cs, sanChar c = true)
    (hch : cs.Chain' sanPairOk) : cs.Chain' noNumP := by
  induction cs with
  | nil => exact List.chain'_nil
  | cons a l ih =>
    obtain ⟨hhead, htail⟩ := List.chain'_cons'.mp hch
    refine List.chain'_cons'.mpr
      ⟨?_, ih (fun c hc => hm c (List.mem_cons_of_mem a hc)) htail⟩
    intro b hb hcon
    have hbsan : sanChar b = true :=
      hm b (List.mem_cons_of_mem a (List.mem_of_mem_head? hb))
    rcases hcon.2 with hh | hh
    · exact (sanChar_ne b hbsan).2.2.2.2.2.2.2.2 hh
    · exact hhead b hb ⟨hcon.1, hh⟩

/-- The rendered text of space-separated spaces, dots and SAN chunks never
puts a dot or a hyphen right after a digit. -/
theorem renderChunks_chain_noNumP (l : List Chunk) (hw : ∀ c ∈ l, WfChunk c)
    (hok : ∀ c ∈ l, isCommentC c = false ∧ isVarC c = false ∧ isResC c = false)
    (hsep : SepOk l) : (renderChunks l).Chain' noNumP := by
  induction l with
  | nil => exact List.chain'_nil
  | cons c rest ih =>
    have hwc : WfChunk c := hw c (List.mem_cons_self c rest)
    have hokc := hok c (List.mem_cons_self c rest)
    have hwithin : (renderChunk c).Chain' noNumP := by
      cases c with
      | sp => exact List.chain'_singleton _
      | dots k => exact chain_noNumP_replicate k
      | sanC cs => exact chain_noNumP_san cs hwc.2.1 hwc.2.2
      | commentC cs => exact absurd hokc.1 (by simp [isCommentC])
      | varC cs => exact absurd hokc.2.1 (by simp [isVarC])
      | resC r => exact absurd hokc.2.2 (by simp [isResC])
    have htail : (renderChunks rest).Chain' noNumP :=
      ih (fun u hu => hw u (List.mem_cons_of_mem c hu))
        (fun u hu => hok u (List.mem_cons_of_mem c hu)) hsep.tail
    show (renderChunk c ++ renderChunks rest).Chain' noNumP
    refine hwithin.append htail ?_
    intro x hx y hy
    by_cases hcsp : c = Chunk.sp
    · subst hcsp
      have hx2 : x = ' ' := by
        have h0 := Option.mem_iff.mp hx
        rw [show (renderChunk Chunk.sp).getLast? = some ' ' from rfl] at h0
        exact (Option.some.inj h0).symm
      subst hx2
      intro hcon
      exact absurd hcon.1 (by decide)
    · cases rest with
      | nil =>
        rw [show renderChunks [] = ([] : List Char) from rfl] at hy
        cases hy
      | cons b rest2 =>
        have hb : b = Chunk.sp := ((List.chain'_cons.mp hsep).1).resolve_left hcsp
        subst hb
        have hy2 : y = ' ' := by
          have h0 := Option.mem_iff.mp hy
          rw [show (renderChunks (Chunk.sp :: rest2)).head?
              = some ' ' from rfl] at h0
          exact (Option.some.inj h0).symm
        subst hy2
        intro hcon
        rcases hcon.2 with hh | hh <;> exact absurd hh (by decide)

/-- JS `trim` returns a contiguous piece of its input. -/
theorem jsTrim_contiguous (l : List Char) : jsTrim l <:+: l := by
  have h1 : l.dropWhile isJsSpace <:+ l := List.dropWhile_suffix _
  have h2 : (l.dropWhile isJsSpace).reverse.dropWhile isJsSpace
      <:+ (l.dropWhile isJsSpace).reverse := List.dropWhile_suffix _
  have h3 : ((l.dropWhile isJsSpace).reverse.dropWhile isJsSpace).reverse
      <+: l.dropWhile isJsSpace := by
    rw [← List.reverse_suffix, List.reverse_reverse]
    exact h2
  exact (h3.isInfix).trans (h1.isInfix)

theorem joinNl_append_ne_nil (ls : List (List Char)) (m : List Char) (hm : m ≠ []) :
    joinNl (ls ++ [m]) ≠ [] := by
  cases ls with
  | nil => simpa [joinNl] using hm
  | cons h ls2 =>
    obtain ⟨x, xs, he⟩ : ∃ x xs, ls2 ++ [m] = x :: xs := by
      cases ls2 <;> exact ⟨_, _, rfl⟩
    rw [List.cons_append, he,
      show joinNl (h :: x :: xs) = h ++ '\n' :: joinNl (x :: xs) from rfl]
    simp

/-- A rendered well-formed PGN is a non-empty string. -/
theorem renderPgn_ne_empty (headers : List (List Char)) (toks : List PgnTok)
    (hw : WfPgn headers toks) : renderPgn headers toks ≠ "" := by
  obtain ⟨c, tl, hhead, -, -⟩ := renderToks_head toks hw.toks_ne hw.toks_wf
  have hchars : renderPgnChars headers toks ≠ [] := by
    unfold renderPgnChars
    apply joinNl_append_ne_nil
    rw [hhead]
    simp
  intro hcon
  exact hchars (congrArg String.data hcon)

/-- On a rendered well-formed PGN the four regex passes turn the movetext
line into the final chunk text, and the whole extraction is its trim. -/
theorem extract_render (headers : List (List Char)) (toks : List PgnTok)
    (hw : WfPgn headers toks) :
    extractMovesChars (renderPgnChars headers toks)
      = jsTrim (renderChunks (finalChunks toks)) := by
  have hwf1 := stage1_wf toks hw.toks_wf
  have hwf2 : ∀ c ∈ (stage1 toks).filter (fun c => !isCommentC c), WfChunk c :=
    fun c hc => hwf1 c (List.mem_filter.mp hc).1
  have hnc2 : ∀ c ∈ (stage1 toks).filter (fun c => !isCommentC c),
      isCommentC c = false :=
    fun c hc => by simpa using (List.mem_filter.mp hc).2
  have hwf3 : ∀ c ∈ ((stage1 toks).filter (fun c => !isCommentC c)).filter
      (fun c => !isVarC c), WfChunk c :=
    fun c hc => hwf2 c (List.mem_filter.mp hc).1
  have hsep3 : SepOk (((stage1 toks).filter (fun c => !isCommentC c)).filter
      (fun c => !isVarC c)) :=
    sepOk_filter _ (by decide) _ (sepOk_filter _ (by decide) _ (stage1_sepOk toks))
  have honly3 : ∀ c ∈ ((stage1 toks).filter (fun c => !isCommentC c)).filter
      (fun c => !isVarC c), isCommentC c = false ∧ isVarC c = false :=
    fun c hc =>
      ⟨hnc2 c (List.mem_filter.mp hc).1, by simpa using (List.mem_filter.mp hc).2⟩
  unfold extractMovesChars
  dsimp only
  rw [lineStage_render headers toks hw,
    show joinSpace [renderToks toks] = renderToks toks from rfl,
    pass1_render toks hw.toks_wf,
    pass2_render _ hwf1,
    pass3_render _ hwf2 hnc2,
    pass4_render _ hwf3 hsep3 honly3]
  rfl

theorem strToList_mk (l : List Char) : (⟨l⟩ : String).toList = l := rfl

theorem renderPgn_toList (headers : List (List Char)) (toks : List PgnTok) :
    (renderPgn headers toks).toList = renderPgnChars headers toks := rfl

/-- The extraction of a rendered well-formed PGN, start to finish. -/
theorem extractMovesFromPgn_render (headers : List (List Char)) (toks : List PgnTok)
    (hw : WfPgn headers toks) :
    (extractMovesFromPgn (some (renderPgn headers toks))).toList
      = jsTrim (renderChunks (finalChunks toks)) := by
  rw [show extractMovesFromPgn (some (renderPgn headers toks))
      = if renderPgn headers toks = "" then ""
        else ⟨extractMovesChars (renderPgn headers toks).toList⟩ from rfl,
    if_neg (renderPgn_ne_empty headers toks hw),
    strToList_mk, renderPgn_toList]
  exact extract_render headers toks hw

/-- C9 (amended): for every chess.com-shaped well-formed PGN — bracketed
header lines followed by one movetext line of move numbers, SAN moves,
dot-free brace comments, non-nested dot-free variations and result
markers — the extracted move string contains no header-line material (no
newline and no opening bracket), no move-number prefix (no digit is
immediately followed by a dot), no brace-comment characters, no
parentheses, and no result marker (no occurrence of the substrings 1-0,
0-1 or 1/2-1/2 and no star).  The original universally quantified claim
over arbitrary PGN texts is refuted by the nested-variation
counterexample. -/
theorem c9_extract_clean (headers : List (List Char)) (toks : List PgnTok)
    (hw : WfPgn headers toks) (out : List Char)
    (ho : out = (extractMovesFromPgn (some (renderPgn headers toks))).toList) :
    ('\n' ∉ out ∧ '[' ∉ out)
    ∧ out.Chain' (fun a b => ¬(isDigitChar a = true ∧ b = '.'))
    ∧ ('{' ∉ out ∧ '}' ∉ out)
    ∧ ('(' ∉ out ∧ ')' ∉ out)
    ∧ (¬"1-0".toList <:+: out ∧ ¬"0-1".toList <:+: out
        ∧ ¬"1/2-1/2".toList <:+: out ∧ '*' ∉ out) := by
  subst ho
  rw [extractMovesFromPgn_render headers toks hw]
  have hchars : ∀ ch, ch ∈ jsTrim (renderChunks (finalChunks toks)) →
      ch = ' ' ∨ ch = '.' ∨ sanChar ch = true :=
    fun ch hch => finalChunks_chars toks hw.toks_wf ch ((jsTrim_contiguous _).subset hch)
  have hchain : (jsTrim (renderChunks (finalChunks toks))).Chain' noNumP :=
    List.Chain'.infix
      (renderChunks_chain_noNumP (finalChunks toks)
        (fun c hc => stage1_wf toks hw.toks_wf c (mem_finalChunks toks c hc).1)
        (fun c hc => (mem_finalChunks toks c hc).2)
        (finalChunks_sepOk toks)) (jsTrim_contiguous _)
  refine ⟨⟨?_, ?_⟩, ?_, ⟨?_, ?_⟩, ⟨?_, ?_⟩, ?_, ?_, ?_, ?_⟩
  · intro hmem
    rcases hchars _ hmem with h | h | h <;> exact absurd h (by decide)
  · intro hmem
    rcases hchars _ hmem with h | h | h <;> exact absurd h (by decide)
  · exact hchain.imp (fun a b h hab => h ⟨hab.1, Or.inl hab.2⟩)
  · intro hmem
    rcases hchars _ hmem with h | h | h <;> exact absurd h (by decide)
  · intro hmem
    rcases hchars _ hmem with h | h | h <;> exact absurd h (by decide)
  · intro hmem
    rcases hchars _ hmem with h | h | h <;> exact absurd h (by decide)
  · intro hmem
    rcases hchars _ hmem with h | h | h <;> exact absurd h (by decide)
  · intro hinf
    have h3 : List.Chain' noNumP ('1' :: '-' :: '0' :: []) := List.Chain'.infix hchain hinf
    exact (List.chain'_cons.mp h3).1 ⟨by decide, Or.inr rfl⟩
  · intro hinf
    have h3 : List.Chain' noNumP ('0' :: '-' :: '1' :: []) := List.Chain'.infix hchain hinf
    exact (List.chain'_cons.mp h3).1 ⟨by decide, Or.inr rfl⟩
  · intro hinf
    have hm : '/' ∈ jsTrim (renderChunks (finalChunks toks)) :=
      hinf.subset (by decide)
    rcases hchars _ hm with h | h | h <;> exact absurd h (by decide)
  · intro hmem
    rcases hchars _ hmem with h | h | h <;> exact absurd h (by decide)

/-- Boolean check of the adjacent-pair restriction inside a SAN token. -/
def sanPairOkB : List Char → Bool
  | [] => true
  | [_] => true
  | a :: b :: rest => (!(isDigitChar a && (b == '-'))) && sanPairOkB (b :: rest)

theorem sanPairOkB_iff (l : List Char) : sanPairOkB l = true ↔ l.Chain' sanPairOk := by
  induction l with
  | nil => simp [sanPairOkB]
  | cons a rest ih =>
    cases rest with
    | nil => simp [sanPairOkB]
    | cons b rest2 =>
      rw [show sanPairOkB (a :: b :: rest2)
          = ((!(isDigitChar a && (b == '-'))) && sanPairOkB (b :: rest2)) from rfl,
        Bool.and_eq_true, ih, List.chain'_cons]
      constructor
      · rintro ⟨h1, h2⟩
        refine ⟨fun hpair => ?_, h2⟩
        rw [hpair.1, hpair.2] at h1
        exact absurd h1 (by decide)
      · rintro ⟨h1, h2⟩
        refine ⟨?_, h2⟩
        have hc2 : (isDigitChar a && (b == '-')) = false := by
          by_contra hc
          rw [Bool.not_eq_false, Bool.and_eq_true, beq_iff_eq] at hc
          exact h1 hc
        rw [hc2]
        rfl

instance : (t : PgnTok) → Decidable (WfTok t)
  | .num ds dots => inferInstanceAs (Decidable
      (ds ≠ [] ∧ (∀ c ∈ ds, isDigitChar c = true) ∧ 1 ≤ dots))
  | .san cs => decidable_of_iff
      (cs ≠ [] ∧ (∀ c ∈ cs, sanChar c = true) ∧ sanPairOkB cs = true)
      (by rw [sanPairOkB_iff]; exact Iff.rfl)
  | .comment cs => inferInstanceAs (Decidable (∀ c ∈ cs, commentChar c = true))
  | .variation cs => inferInstanceAs (Decidable (∀ c ∈ cs, varChar c = true))
  | .res _ => inferInstanceAs (Decidable True)

/-- Concrete chess.com-shaped header lines. -/
def c9Headers : List (List Char) := ["[Event \"Live Chess\"]".toList]

/-- Concrete chess.com-shaped movetext tokens: move numbers in both the
white and the black (triple-dot) form, clock comments, a variation and a
result marker. -/
def c9Toks : List PgnTok :=
  [PgnTok.num ['1'] 1, PgnTok.san "e4".toList,
    PgnTok.comment "[%clk 0:02:59]".toList,
    PgnTok.num ['1'] 3, PgnTok.san "e5".toList,
    PgnTok.comment "[%clk 0:02:58]".toList,
    PgnTok.num ['2'] 1, PgnTok.san "O-O".toList,
    PgnTok.variation "2 d4 d5".toList,
    PgnTok.res ResultMark.white]

/-- The extracted move string of the concrete PGN. -/
def c9Out : List Char :=
  (extractMovesFromPgn (some (renderPgn c9Headers c9Toks))).toList

theorem c9_extract_clean_witness :
    WfPgn c9Headers c9Toks
    ∧ (('\n' ∉ c9Out ∧ '[' ∉ c9Out)
      ∧ c9Out.Chain' (fun a b => ¬(isDigitChar a = true ∧ b = '.'))
      ∧ ('{' ∉ c9Out ∧ '}' ∉ c9Out)
      ∧ ('(' ∉ c9Out ∧ ')' ∉ c9Out)
      ∧ (¬"1-0".toList <:+: c9Out ∧ ¬"0-1".toList <:+: c9Out
          ∧ ¬"1/2-1/2".toList <:+: c9Out ∧ '*' ∉ c9Out)) := by
  have hwf : WfPgn c9Headers c9Toks := by
    refine ⟨?_, ?_, ?_, ?_⟩
    · intro h hh
      have h2 : h = "[Event \"Live Chess\"]".toList := by
        simpa [c9Headers] using hh
      exact ⟨"Event \"Live Chess\"]".toList, by rw [h2]; decide⟩
    · decide
    · decide
    · decide
  exact ⟨hwf, c9_extract_clean c9Headers c9Toks hwf c9Out rfl⟩

end Chess